import Mathlib

/-!
# Verification of the wikigo hierarchical page / slug / share-link core

Shallow embedding of the slug normalizer (`slugify`), the page store
(`CreatePage` / `UpdatePage` / `DeletePages`), the hierarchy resolver
(`ensureParentPages`, `GetAllDescendants`), the revision ledger and the
share-link validation engine, together with proofs and refutations of the
specification claims.

All machine strings are modelled as Lean `String`s (lists of characters);
slugs produced by the normalizer are ASCII, so byte-level and
character-level operations of the Go source coincide on every value that
actually flows through the store.
-/

namespace Wikigo

/-! ## Character classes -/

/-- ASCII lower-casing.  Go's `strings.ToLower` additionally folds non-ASCII
letters, but every non-ASCII character (lowered or not) is removed by the
subsequent slug-character filter, so the composite pipeline agrees. -/
def asciiLower (c : Char) : Char :=
  if 'A' ≤ c ∧ c ≤ 'Z' then Char.ofNat (c.toNat + 32) else c

/-- Characters kept by the slug filter: lowercase letters, digits, slash, hyphen. -/
def allowedChar (c : Char) : Bool :=
  ('a' ≤ c && c ≤ 'z') || ('0' ≤ c && c ≤ '9') || c = '/' || c = '-'

/-- ASCII whitespace, as in Go's `unicode.IsSpace` restricted to ASCII. -/
def isGoSpace (c : Char) : Bool :=
  c = ' ' || c = '\t' || c = '\n' || c = (Char.ofNat 11) || c = (Char.ofNat 12) || c = '\r'

/-! ## The slug normalizer (`slugify`, src/unnamed/part_000)

The Go function is a pipeline of `strings`/`regexp` operations; each stage
is embedded as a character-list function below.
-/

/-- Stage 2 of `slugify`: `strings.ReplaceAll(s, " ", "-")` followed by
`strings.ReplaceAll(s, "_", "-")`. -/
def replaceSpaceUnderscore (l : List Char) : List Char :=
  l.map (fun c => if c = ' ' ∨ c = '_' then '-' else c)

/-- Stage 3: every character outside the slug character class replaced by the empty string. -/
def stripDisallowed (l : List Char) : List Char :=
  l.filter allowedChar

/-- Worker for run-collapsing (`-+` → `-`, `/+` → `/`): the flag records
whether the previously emitted character was the collapsed character `d`. -/
def squeezeGo (d : Char) : Bool → List Char → List Char
  | _, [] => []
  | lastWasD, c :: rest =>
    if c = d then
      if lastWasD then squeezeGo d true rest
      else c :: squeezeGo d true rest
    else c :: squeezeGo d false rest

/-- `regexp d+` replaced by the single character `d`. -/
def squeeze (d : Char) (l : List Char) : List Char :=
  squeezeGo d false l

/-- A trimmable character for stage 6 (hyphen or slash). -/
def isTrimChar (c : Char) : Bool := c = '-' || c = '/'

/-- Stage 6: `strings.Trim` of the slug with cutset hyphen-and-slash. -/
def trimEnds (l : List Char) : List Char :=
  ((l.dropWhile isTrimChar).reverse.dropWhile isTrimChar).reverse

/-- Scanner state for stage 7.  `norm` is outside any match, `slashes` is
inside the slash run of a match (one slash already emitted), `hyphens` is
inside the trailing hyphen run of a match. -/
inductive CMode where
  | norm
  | slashes
  | hyphens
deriving DecidableEq, Repr

/-- Stage 7: `regexp.MustCompile("-*/+-*").ReplaceAllString(slug, "/")` as a
left-to-right state machine.  A match of the pattern succeeds at a position
exactly when the (possibly empty) run of hyphens starting there is followed
by a slash; the match then greedily consumes that hyphen run, the adjacent
slash run and the following hyphen run, and is replaced by one slash, after
which scanning resumes at the next character (leftmost, non-overlapping).
In `norm` mode `pend` counts hyphens read but not yet classified: they are
discarded if a slash follows (leading hyphen run of a match) and emitted
verbatim otherwise. -/
def cleanGo : CMode → Nat → List Char → List Char
  | .norm, pend, [] => List.replicate pend '-'
  | .norm, pend, c :: r =>
    if c = '-' then cleanGo .norm (pend + 1) r
    else if c = '/' then '/' :: cleanGo .slashes 0 r
    else List.replicate pend '-' ++ c :: cleanGo .norm 0 r
  | .slashes, _, [] => []
  | .slashes, _, c :: r =>
    if c = '/' then cleanGo .slashes 0 r
    else if c = '-' then cleanGo .hyphens 0 r
    else c :: cleanGo .norm 0 r
  | .hyphens, _, [] => []
  | .hyphens, _, c :: r =>
    if c = '-' then cleanGo .hyphens 0 r
    else if c = '/' then '/' :: cleanGo .slashes 0 r
    else c :: cleanGo .norm 0 r

/-- Stage 7 entry point. -/
def cleanup (l : List Char) : List Char :=
  cleanGo .norm 0 l

/-- The full `slugify` pipeline on character lists. -/
def slugifyL (l : List Char) : List Char :=
  cleanup (trimEnds (squeeze '/' (squeeze '-'
    (stripDisallowed (replaceSpaceUnderscore (l.map asciiLower))))))

/-- `slugify` (src/unnamed/part_000): converts a page name to a URL-safe
hierarchical slug. -/
def slugify (s : String) : String :=
  ⟨slugifyL s.data⟩

example : slugify "Hello World" = "hello-world" := by decide
example : slugify "foo-/bar" = "foo/bar" := by decide
example : slugify "a/-/b" = "a//b" := by decide
example : slugify "a//b" = "a/b" := by decide
example : slugify "-/-" = "" := by decide
example : slugify "linux/ubuntu" = "linux/ubuntu" := by decide

/-! ## Adjacent-pair predicates

The shape of a slug around hyphens and slashes is captured by `noPair a b l`
("nowhere in `l` does `a` immediately precede `b`") plus conditions on the
first and last character.  These drive both the idempotence analysis of
`slugify` and its comparison with the specification's pipeline.
-/

/-- No occurrence of the character `a` immediately followed by `b`. -/
def noPair (a b : Char) : List Char → Bool
  | [] => true
  | [_] => true
  | x :: y :: r => !(x = a && y = b) && noPair a b (y :: r)

/-- The first character, if any, is neither a hyphen nor a slash. -/
def firstOk (l : List Char) : Bool :=
  match l.head? with
  | some c => !(isTrimChar c)
  | none => true

/-- The last character, if any, is neither a hyphen nor a slash. -/
def lastOk (l : List Char) : Bool :=
  match l.getLast? with
  | some c => !(isTrimChar c)
  | none => true

theorem noPair_cons_cons {a b x y : Char} {r : List Char} :
    noPair a b (x :: y :: r) = (!(x = a && y = b) && noPair a b (y :: r)) := rfl

theorem noPair_tail {a b x : Char} {r : List Char}
    (h : noPair a b (x :: r) = true) : noPair a b r = true := by
  cases r with
  | nil => rfl
  | cons y t =>
    rw [noPair_cons_cons, Bool.and_eq_true] at h
    exact h.2

theorem noPair_head {a b x : Char} {r : List Char}
    (h : noPair a b (x :: r) = true) (hx : x = a) : r.head? ≠ some b := by
  cases r with
  | nil => simp
  | cons y t =>
    rw [noPair_cons_cons, Bool.and_eq_true] at h
    intro hy
    simp only [List.head?_cons, Option.some.injEq] at hy
    simp [hx, hy] at h

theorem noPair_cons_of {a b x : Char} {r : List Char}
    (h : noPair a b r = true) (hx : ¬(x = a ∧ r.head? = some b)) :
    noPair a b (x :: r) = true := by
  cases r with
  | nil => rfl
  | cons y t =>
    rw [noPair_cons_cons, Bool.and_eq_true]
    refine ⟨?_, h⟩
    simp only [List.head?_cons, Option.some.injEq] at hx
    simp only [Bool.not_eq_true', Bool.and_eq_false_iff, decide_eq_false_iff_not]
    by_cases hxa : x = a
    · exact Or.inr (fun hyb => hx ⟨hxa, hyb⟩)
    · exact Or.inl hxa

theorem noPair_dropWhile {a b : Char} {p : Char → Bool} {l : List Char}
    (h : noPair a b l = true) : noPair a b (l.dropWhile p) = true := by
  induction l with
  | nil => exact h
  | cons x r ih =>
    rw [List.dropWhile_cons]
    by_cases hp : p x
    · simp only [hp, if_true]
      exact ih (noPair_tail h)
    · simp only [hp, if_false]
      exact h

theorem noPair_append_singleton {a b x : Char} {u : List Char} :
    noPair a b (u ++ [x]) =
      (noPair a b u && !(u.getLast? = some a && x = b)) := by
  induction u with
  | nil => simp [noPair]
  | cons c r ih =>
    cases r with
    | nil =>
      simp [noPair, noPair_cons_cons]
    | cons d t =>
      have h3 : (c :: d :: t).getLast? = (d :: t).getLast? :=
        List.getLast?_cons_cons
      have e1 : noPair a b ((c :: d :: t) ++ [x])
          = (!(c = a && d = b) && noPair a b ((d :: t) ++ [x])) := rfl
      rw [e1, ih, noPair_cons_cons, h3, Bool.and_assoc]

theorem noPair_reverse {a b : Char} {l : List Char} :
    noPair a b l.reverse = noPair b a l := by
  induction l with
  | nil => rfl
  | cons x r ih =>
    rw [List.reverse_cons, noPair_append_singleton, ih, List.getLast?_reverse]
    cases r with
    | nil => simp [noPair]
    | cons y t =>
      rw [noPair_cons_cons]
      simp only [List.head?_cons, Option.some.injEq]
      by_cases hya : y = a <;> by_cases hxb : x = b <;>
        simp [hya, hxb, Bool.and_comm]

theorem noPair_trimEnds {a b : Char} {l : List Char}
    (h : noPair a b l = true) : noPair a b (trimEnds l) = true := by
  unfold trimEnds
  have h1 : noPair a b (l.dropWhile isTrimChar) = true := noPair_dropWhile h
  have h2 : noPair b a (l.dropWhile isTrimChar).reverse = true := by
    rw [noPair_reverse]; exact h1
  have h3 : noPair b a ((l.dropWhile isTrimChar).reverse.dropWhile isTrimChar)
      = true := noPair_dropWhile h2
  rw [noPair_reverse]
  exact h3

theorem mem_trimEnds {x : Char} {l : List Char} (h : x ∈ trimEnds l) : x ∈ l := by
  unfold trimEnds at h
  rw [List.mem_reverse] at h
  have h1 : ((l.dropWhile isTrimChar).reverse.dropWhile isTrimChar).Sublist
      ((l.dropWhile isTrimChar).reverse) := List.dropWhile_sublist isTrimChar
  have h2 := h1.mem h
  rw [List.mem_reverse] at h2
  exact (List.dropWhile_sublist isTrimChar :
    (l.dropWhile isTrimChar).Sublist l).mem h2

theorem head?_dropWhile_not {p : Char → Bool} {l : List Char} {c : Char}
    (h : (l.dropWhile p).head? = some c) : p c = false := by
  induction l with
  | nil => simp at h
  | cons x r ih =>
    by_cases hp : p x = true
    · rw [List.dropWhile_cons, if_pos hp] at h
      exact ih h
    · rw [List.dropWhile_cons, if_neg hp] at h
      simp only [List.head?_cons, Option.some.injEq] at h
      subst h
      exact Bool.not_eq_true _ ▸ Bool.eq_false_iff.mpr hp

theorem getLast?_dropWhile {p : Char → Bool} {l : List Char}
    (h : l.dropWhile p ≠ []) : (l.dropWhile p).getLast? = l.getLast? := by
  induction l with
  | nil => simp at h
  | cons x r ih =>
    by_cases hp : p x = true
    · rw [List.dropWhile_cons, if_pos hp] at h ⊢
      have hr : r ≠ [] := by
        intro hre
        subst hre
        simp at h
      rw [ih h]
      cases r with
      | nil => exact absurd rfl hr
      | cons y t => exact (List.getLast?_cons_cons).symm
    · rw [List.dropWhile_cons, if_neg hp]

theorem firstOk_trimEnds {l : List Char} : firstOk (trimEnds l) = true := by
  unfold trimEnds firstOk
  rw [List.head?_reverse]
  cases hW : ((l.dropWhile isTrimChar).reverse.dropWhile isTrimChar) with
  | nil => simp
  | cons w t =>
    have hne : (l.dropWhile isTrimChar).reverse.dropWhile isTrimChar ≠ [] := by
      rw [hW]; simp
    rw [← hW, getLast?_dropWhile hne, List.getLast?_reverse]
    cases hV : (l.dropWhile isTrimChar).head? with
    | none => simp
    | some c =>
      simp only
      rw [head?_dropWhile_not hV]
      rfl

theorem lastOk_trimEnds {l : List Char} : lastOk (trimEnds l) = true := by
  unfold trimEnds lastOk
  rw [List.getLast?_reverse]
  cases hW : ((l.dropWhile isTrimChar).reverse.dropWhile isTrimChar).head? with
  | none => simp
  | some c =>
    simp only
    rw [head?_dropWhile_not hW]
    rfl

/-! ## Lemmas about run collapsing (`squeeze`) -/

theorem squeezeGo_pos_true {d c : Char} {r : List Char} (hc : c = d) :
    squeezeGo d true (c :: r) = squeezeGo d true r := by
  simp [squeezeGo, hc]

theorem squeezeGo_pos_false {d c : Char} {r : List Char} (hc : c = d) :
    squeezeGo d false (c :: r) = c :: squeezeGo d true r := by
  simp [squeezeGo, hc]

theorem squeezeGo_neg {d c : Char} {r : List Char} (hc : ¬ c = d) (fl : Bool) :
    squeezeGo d fl (c :: r) = c :: squeezeGo d false r := by
  cases fl <;> simp [squeezeGo, hc]

theorem mem_squeezeGo {d x : Char} {fl : Bool} {l : List Char}
    (h : x ∈ squeezeGo d fl l) : x ∈ l := by
  induction l generalizing fl with
  | nil => simp [squeezeGo] at h
  | cons c r ih =>
    by_cases hc : c = d
    · cases fl with
      | true =>
        rw [squeezeGo_pos_true hc] at h
        exact List.mem_cons_of_mem c (ih h)
      | false =>
        rw [squeezeGo_pos_false hc] at h
        rcases List.mem_cons.mp h with h3 | h3
        · exact h3 ▸ List.mem_cons_self c r
        · exact List.mem_cons_of_mem c (ih h3)
    · rw [squeezeGo_neg hc] at h
      rcases List.mem_cons.mp h with h3 | h3
      · exact h3 ▸ List.mem_cons_self c r
      · exact List.mem_cons_of_mem c (ih h3)

theorem head?_squeezeGo_false {d : Char} {l : List Char} :
    (squeezeGo d false l).head? = l.head? := by
  cases l with
  | nil => rfl
  | cons c r =>
    by_cases hc : c = d
    · rw [squeezeGo_pos_false hc]
      rfl
    · rw [squeezeGo_neg hc]
      rfl

theorem head?_squeezeGo_true {d : Char} {l : List Char} :
    (squeezeGo d true l).head? = (l.dropWhile (fun c => c = d)).head? := by
  induction l with
  | nil => rfl
  | cons c r ih =>
    by_cases hc : c = d
    · rw [squeezeGo_pos_true hc, List.dropWhile_cons, if_pos (by simp [hc])]
      exact ih
    · rw [squeezeGo_neg hc, List.dropWhile_cons, if_neg (by simp [hc])]
      rfl

theorem getLast?_squeezeGo {d x : Char} {l : List Char}
    (h : l.getLast? = some x) (hx : x ≠ d) :
    ∀ fl, (squeezeGo d fl l).getLast? = some x := by
  induction l with
  | nil => simp at h
  | cons c r ih =>
    intro fl
    cases r with
    | nil =>
      simp only [List.getLast?_singleton, Option.some.injEq] at h
      subst h
      rw [squeezeGo_neg hx fl]
      rfl
    | cons y t =>
      rw [List.getLast?_cons_cons] at h
      have hout : ∀ fl', (squeezeGo d fl' (y :: t)).getLast? = some x :=
        fun fl' => ih h fl'
      have hcons : ∀ fl', (c :: squeezeGo d fl' (y :: t)).getLast? = some x := by
        intro fl'
        cases hsq : squeezeGo d fl' (y :: t) with
        | nil =>
          have h0 := hout fl'
          rw [hsq] at h0
          simp at h0
        | cons z w =>
          rw [List.getLast?_cons_cons, ← hsq]
          exact hout fl'
      by_cases hc : c = d
      · cases fl with
        | true => rw [squeezeGo_pos_true hc]; exact hout true
        | false => rw [squeezeGo_pos_false hc]; exact hcons true
      · rw [squeezeGo_neg hc]
        exact hcons false

theorem noPair_head_dropWhile {a b z : Char} {r : List Char}
    (h : noPair a b (a :: r) = true)
    (hz : (r.dropWhile (fun c => c = a)).head? = some z) : z ≠ b := by
  induction r with
  | nil => simp at hz
  | cons y t ih =>
    by_cases hy : y = a
    · rw [List.dropWhile_cons, if_pos (by simp [hy])] at hz
      have h2 : noPair a b (a :: t) = true := by
        have h3 := noPair_tail h
        rw [hy] at h3
        exact h3
      exact ih h2 hz
    · rw [List.dropWhile_cons, if_neg (by simp [hy])] at hz
      simp only [List.head?_cons, Option.some.injEq] at hz
      subst hz
      exact fun hb => noPair_head h rfl (by simp [hb])

theorem noPair_dd_squeezeGo {d : Char} {l : List Char} : ∀ fl,
    noPair d d (squeezeGo d fl l) = true ∧
    (fl = true → (squeezeGo d fl l).head? ≠ some d) := by
  induction l with
  | nil => intro fl; exact ⟨rfl, by simp [squeezeGo]⟩
  | cons c r ih =>
    intro fl
    by_cases hc : c = d
    · cases fl with
      | true =>
        rw [squeezeGo_pos_true hc]
        exact ⟨(ih true).1, fun _ => (ih true).2 rfl⟩
      | false =>
        rw [squeezeGo_pos_false hc]
        refine ⟨noPair_cons_of (ih true).1 (fun hp => (ih true).2 rfl hp.2), ?_⟩
        intro h0
        exact absurd h0 (by simp)
    · rw [squeezeGo_neg hc]
      refine ⟨noPair_cons_of (ih false).1 (fun hp => hc hp.1), ?_⟩
      intro _
      simp only [List.head?_cons]
      exact fun hp => hc (by simpa using hp)

theorem noPair_squeezeGo_of_ne {a b d : Char} {l : List Char} (had : a ≠ d) :
    ∀ fl, noPair a b l = true → noPair a b (squeezeGo d fl l) = true := by
  induction l with
  | nil => intro fl _; rfl
  | cons c r ih =>
    intro fl h
    by_cases hc : c = d
    · cases fl with
      | true =>
        rw [squeezeGo_pos_true hc]
        exact ih true (noPair_tail h)
      | false =>
        rw [squeezeGo_pos_false hc]
        exact noPair_cons_of (ih true (noPair_tail h))
          (fun hp => had (hp.1 ▸ hc ▸ rfl))
    · rw [squeezeGo_neg hc]
      refine noPair_cons_of (ih false (noPair_tail h)) (fun hp => ?_)
      rw [head?_squeezeGo_false] at hp
      exact noPair_head h hp.1 hp.2

theorem noPair_squeezeGo_left {b d : Char} {l : List Char} :
    ∀ fl, noPair d b l = true → noPair d b (squeezeGo d fl l) = true := by
  induction l with
  | nil => intro fl _; rfl
  | cons c r ih =>
    intro fl h
    by_cases hc : c = d
    · cases fl with
      | true =>
        rw [squeezeGo_pos_true hc]
        exact ih true (noPair_tail h)
      | false =>
        rw [squeezeGo_pos_false hc]
        refine noPair_cons_of (ih true (noPair_tail h)) (fun hp => ?_)
        rw [head?_squeezeGo_true] at hp
        have h2 : noPair d b (d :: r) = true := hc ▸ h
        exact noPair_head_dropWhile h2 hp.2 rfl
    · rw [squeezeGo_neg hc]
      exact noPair_cons_of (ih false (noPair_tail h)) (fun hp => hc hp.1)

theorem squeezeGo_id {d : Char} {l : List Char} :
    ∀ fl, noPair d d l = true → (fl = true → l.head? ≠ some d) →
    squeezeGo d fl l = l := by
  induction l with
  | nil => intro fl _ _; rfl
  | cons c r ih =>
    intro fl h hfl
    by_cases hc : c = d
    · cases fl with
      | true => exact absurd (by simp [hc]) (hfl rfl)
      | false =>
        rw [squeezeGo_pos_false hc]
        rw [ih true (noPair_tail h) (fun _ => noPair_head h hc)]
    · rw [squeezeGo_neg hc]
      rw [ih false (noPair_tail h) (fun hf => Bool.noConfusion hf)]

/-! ## Stage identity and preservation lemmas -/

/-- The invariant satisfied by every `slugify` output: slug characters only,
no repeated hyphen, no hyphen adjacent to a slash, and no hyphen or slash at
either end.  A repeated slash may remain, which is what defeats idempotence. -/
def good1 (l : List Char) : Bool :=
  l.all allowedChar && noPair '-' '-' l && noPair '-' '/' l &&
    noPair '/' '-' l && firstOk l && lastOk l

/-- `good1` plus "no repeated slash": the invariant of twice-normalized
slugs, on which `slugify` acts as the identity. -/
def good2 (l : List Char) : Bool :=
  good1 l && noPair '/' '/' l

theorem asciiLower_of_allowed {c : Char} (h : allowedChar c = true) :
    asciiLower c = c := by
  unfold asciiLower
  rw [if_neg]
  rintro ⟨h1, h2⟩
  unfold allowedChar at h
  simp only [Bool.or_eq_true, Bool.and_eq_true, decide_eq_true_eq] at h
  simp only [Char.le_def, UInt32.le_def, BitVec.le_def] at h1 h2
  have eA : ('A' : Char).val.toBitVec.toNat = 65 := rfl
  have eZ : ('Z' : Char).val.toBitVec.toNat = 90 := rfl
  rw [eA] at h1
  rw [eZ] at h2
  rcases h with ((⟨h3, _⟩ | ⟨_, h4⟩) | h3) | h3
  · simp only [Char.le_def, UInt32.le_def, BitVec.le_def] at h3
    have ea : ('a' : Char).val.toBitVec.toNat = 97 := rfl
    rw [ea] at h3
    omega
  · simp only [Char.le_def, UInt32.le_def, BitVec.le_def] at h4
    have e9 : ('9' : Char).val.toBitVec.toNat = 57 := rfl
    rw [e9] at h4
    omega
  · subst h3
    have ev : ('/' : Char).val.toBitVec.toNat = 47 := rfl
    rw [ev] at h1
    omega
  · subst h3
    have ev : ('-' : Char).val.toBitVec.toNat = 45 := rfl
    rw [ev] at h1
    omega

theorem map_asciiLower_of_allowed {l : List Char}
    (h : l.all allowedChar = true) : l.map asciiLower = l := by
  induction l with
  | nil => rfl
  | cons c r ih =>
    rw [List.all_cons, Bool.and_eq_true] at h
    rw [List.map_cons, asciiLower_of_allowed h.1, ih h.2]

theorem replaceSpaceUnderscore_of_allowed {l : List Char}
    (h : l.all allowedChar = true) : replaceSpaceUnderscore l = l := by
  induction l with
  | nil => rfl
  | cons c r ih =>
    rw [List.all_cons, Bool.and_eq_true] at h
    unfold replaceSpaceUnderscore at ih ⊢
    rw [List.map_cons, ih h.2]
    have hc : ¬(c = ' ' ∨ c = '_') := by
      rintro (h1 | h1) <;> (subst h1; exact Bool.noConfusion h.1)
    rw [if_neg hc]

theorem stripDisallowed_of_allowed {l : List Char}
    (h : l.all allowedChar = true) : stripDisallowed l = l := by
  unfold stripDisallowed
  exact List.filter_eq_self.mpr (List.all_eq_true.mp h)

theorem all_squeezeGo {p : Char → Bool} {d : Char} {fl : Bool} {l : List Char}
    (h : l.all p = true) : (squeezeGo d fl l).all p = true := by
  rw [List.all_eq_true] at h ⊢
  exact fun x hx => h x (mem_squeezeGo hx)

theorem all_trimEnds {p : Char → Bool} {l : List Char}
    (h : l.all p = true) : (trimEnds l).all p = true := by
  rw [List.all_eq_true] at h ⊢
  exact fun x hx => h x (mem_trimEnds hx)

theorem firstOk_squeeze {d : Char} {l : List Char}
    (h : firstOk l = true) : firstOk (squeeze d l) = true := by
  unfold firstOk at h ⊢
  unfold squeeze
  rw [head?_squeezeGo_false]
  exact h

theorem lastOk_squeezeGo {d : Char} {fl : Bool} {l : List Char}
    (hd : isTrimChar d = true) (h : lastOk l = true) :
    lastOk (squeezeGo d fl l) = true := by
  unfold lastOk at h ⊢
  cases hg : l.getLast? with
  | none =>
    have he : l = [] := List.getLast?_eq_none_iff.mp hg
    subst he
    rfl
  | some x =>
    have h2 : (!(isTrimChar x)) = true := by
      rw [hg] at h
      exact h
    have hx : x ≠ d := by
      intro he
      rw [he, hd] at h2
      exact Bool.noConfusion h2
    rw [getLast?_squeezeGo hg hx fl]
    exact h2

theorem dropWhile_eq_self_of_head {p : Char → Bool} {l : List Char}
    (h : ∀ c, l.head? = some c → p c = false) : l.dropWhile p = l := by
  cases l with
  | nil => rfl
  | cons c r =>
    rw [List.dropWhile_cons, if_neg]
    simp [h c rfl]

theorem trimEnds_id {l : List Char} (h1 : firstOk l = true)
    (h2 : lastOk l = true) : trimEnds l = l := by
  have e1 : l.dropWhile isTrimChar = l := by
    refine dropWhile_eq_self_of_head (fun c hc => ?_)
    unfold firstOk at h1
    rw [hc] at h1
    simpa using h1
  have e2 : l.reverse.dropWhile isTrimChar = l.reverse := by
    refine dropWhile_eq_self_of_head (fun c hc => ?_)
    rw [List.head?_reverse] at hc
    unfold lastOk at h2
    rw [hc] at h2
    simpa using h2
  unfold trimEnds
  rw [e1, e2, List.reverse_reverse]

/-- On input with no hyphen-slash adjacency in either order and no repeated
slash, stage 7 finds only trivial matches (each a lone slash, replaced by
itself) and is the identity. -/
theorem cleanGo_id_strong : ∀ n, ∀ l : List Char, l.length ≤ n →
    noPair '-' '/' l = true → noPair '/' '-' l = true →
    noPair '/' '/' l = true →
    (cleanGo .norm 0 l = l
     ∧ (∀ pend, l.head? ≠ some '/' →
          cleanGo .norm pend l = List.replicate pend '-' ++ l)
     ∧ (l.head? ≠ some '/' → l.head? ≠ some '-' →
          cleanGo .slashes 0 l = l)) := by
  intro n
  induction n with
  | zero =>
    intro l hl _ _ _
    have he : l = [] := List.length_eq_zero.mp (Nat.le_zero.mp hl)
    subst he
    exact ⟨rfl, fun pend _ => by simp [cleanGo], fun _ _ => rfl⟩
  | succ n ih =>
    intro l hl hds hsd hss
    cases l with
    | nil => exact ⟨rfl, fun pend _ => by simp [cleanGo], fun _ _ => rfl⟩
    | cons c r =>
      have hlr : r.length ≤ n := by
        simp only [List.length_cons] at hl
        omega
      have IH := ih r hlr (noPair_tail hds) (noPair_tail hsd) (noPair_tail hss)
      have c2 : ∀ pend, (c :: r).head? ≠ some '/' →
          cleanGo .norm pend (c :: r) = List.replicate pend '-' ++ (c :: r) := by
        intro pend hc
        have hcs : c ≠ '/' := fun he => hc (by simp [he])
        by_cases hch : c = '-'
        · have e : cleanGo .norm pend (c :: r) = cleanGo .norm (pend + 1) r := by
            simp [cleanGo, hch]
          rw [e, IH.2.1 (pend + 1) (noPair_head hds hch), hch]
          rw [List.replicate_succ', List.append_assoc]
          rfl
        · have e : cleanGo .norm pend (c :: r) =
              List.replicate pend '-' ++ c :: cleanGo .norm 0 r := by
            simp [cleanGo, hch, hcs]
          rw [e, IH.1]
      refine ⟨?_, c2, ?_⟩
      · by_cases hcs : c = '/'
        · have e : cleanGo .norm 0 (c :: r) = '/' :: cleanGo .slashes 0 r := by
            simp [cleanGo, hcs]
          rw [e, IH.2.2 (noPair_head hss hcs) (noPair_head hsd hcs), hcs]
        · have e := c2 0 (fun he => hcs (by simpa using he))
          simpa using e
      · intro hh1 hh2
        have hcs : c ≠ '/' := fun he => hh1 (by simp [he])
        have hch : c ≠ '-' := fun he => hh2 (by simp [he])
        have e : cleanGo .slashes 0 (c :: r) = c :: cleanGo .norm 0 r := by
          simp [cleanGo, hcs, hch]
        rw [e, IH.1]

theorem cleanup_id {l : List Char} (hds : noPair '-' '/' l = true)
    (hsd : noPair '/' '-' l = true) (hss : noPair '/' '/' l = true) :
    cleanup l = l :=
  (cleanGo_id_strong l.length l le_rfl hds hsd hss).1

/-! ## `slugify` on its own image -/

theorem good1_parts {l : List Char} (h : good1 l = true) :
    l.all allowedChar = true ∧ noPair '-' '-' l = true ∧
    noPair '-' '/' l = true ∧ noPair '/' '-' l = true ∧
    firstOk l = true ∧ lastOk l = true := by
  unfold good1 at h
  simp only [Bool.and_eq_true] at h
  exact ⟨h.1.1.1.1.1, h.1.1.1.1.2, h.1.1.1.2, h.1.1.2, h.1.2, h.2⟩

/-- On a `good1` string, the first `slugify` stages are the identity and the
whole pipeline reduces to collapsing repeated slashes. -/
theorem slugifyL_of_good1 {l : List Char} (h : good1 l = true) :
    slugifyL l = squeeze '/' l := by
  obtain ⟨hall, hdd, hds, hsd, hfo, hlo⟩ := good1_parts h
  unfold slugifyL
  rw [map_asciiLower_of_allowed hall, replaceSpaceUnderscore_of_allowed hall,
    stripDisallowed_of_allowed hall]
  unfold squeeze
  rw [squeezeGo_id false hdd (fun hf => Bool.noConfusion hf)]
  have hds2 : noPair '-' '/' (squeezeGo '/' false l) = true :=
    noPair_squeezeGo_of_ne (by decide) false hds
  have hsd2 : noPair '/' '-' (squeezeGo '/' false l) = true :=
    noPair_squeezeGo_left false hsd
  have hss2 : noPair '/' '/' (squeezeGo '/' false l) = true :=
    (noPair_dd_squeezeGo false).1
  have hfo2 : firstOk (squeezeGo '/' false l) = true := firstOk_squeeze hfo
  have hlo2 : lastOk (squeezeGo '/' false l) = true :=
    lastOk_squeezeGo (by decide) hlo
  rw [trimEnds_id hfo2 hlo2]
  exact cleanup_id hds2 hsd2 hss2

theorem good2_squeeze_slash {l : List Char} (h : good1 l = true) :
    good2 (squeeze '/' l) = true := by
  obtain ⟨hall, hdd, hds, hsd, hfo, hlo⟩ := good1_parts h
  unfold good2 good1 squeeze
  simp only [Bool.and_eq_true]
  refine ⟨⟨⟨⟨⟨⟨?_, ?_⟩, ?_⟩, ?_⟩, ?_⟩, ?_⟩, ?_⟩
  · exact all_squeezeGo hall
  · exact noPair_squeezeGo_of_ne (by decide) false hdd
  · exact noPair_squeezeGo_of_ne (by decide) false hds
  · exact noPair_squeezeGo_left false hsd
  · exact firstOk_squeeze hfo
  · exact lastOk_squeezeGo (by decide) hlo
  · exact (noPair_dd_squeezeGo false).1

/-- `slugify` is the identity on `good2` strings. -/
theorem slugifyL_of_good2 {l : List Char} (h : good2 l = true) :
    slugifyL l = l := by
  unfold good2 at h
  rw [Bool.and_eq_true] at h
  obtain ⟨hall, hdd, hds, hsd, hfo, hlo⟩ := good1_parts h.1
  have hss := h.2
  unfold slugifyL
  rw [map_asciiLower_of_allowed hall, replaceSpaceUnderscore_of_allowed hall,
    stripDisallowed_of_allowed hall]
  unfold squeeze
  rw [squeezeGo_id false hdd (fun hf => Bool.noConfusion hf)]
  rw [squeezeGo_id false hss (fun hf => Bool.noConfusion hf)]
  rw [trimEnds_id hfo hlo]
  exact cleanup_id hds hsd hss

/-! ## The invariant of `slugify` outputs -/

/-- The pair-and-end invariants of a stage 7 output (`firstOk` is recovered
separately at the top level). -/
def goodOut (l : List Char) : Bool :=
  l.all allowedChar && noPair '-' '-' l && noPair '-' '/' l &&
    noPair '/' '-' l && lastOk l

theorem goodOut_parts {l : List Char} (h : goodOut l = true) :
    l.all allowedChar = true ∧ noPair '-' '-' l = true ∧
    noPair '-' '/' l = true ∧ noPair '/' '-' l = true ∧ lastOk l = true := by
  unfold goodOut at h
  simp only [Bool.and_eq_true] at h
  exact ⟨h.1.1.1.1, h.1.1.1.2, h.1.1.2, h.1.2, h.2⟩

theorem lastOk_cons_ne {c : Char} {r : List Char} (hr : r ≠ []) :
    lastOk (c :: r) = lastOk r := by
  unfold lastOk
  cases r with
  | nil => exact absurd rfl hr
  | cons y t => rw [List.getLast?_cons_cons]

theorem ne_nil_of_lastOk_trim {c : Char} {r : List Char}
    (h : lastOk (c :: r) = true) (hc : isTrimChar c = true) : r ≠ [] := by
  intro he
  subst he
  unfold lastOk at h
  simp only [List.getLast?_singleton] at h
  rw [hc] at h
  exact Bool.noConfusion h

theorem lastOk_tail {c : Char} {r : List Char}
    (h : lastOk (c :: r) = true) : lastOk r = true := by
  cases r with
  | nil => rfl
  | cons y t =>
    rw [lastOk_cons_ne (by simp)] at h
    exact h

theorem goodOut_cons {c : Char} {out : List Char} (hg : goodOut out = true)
    (hc : allowedChar c = true)
    (hdd : ¬(c = '-' ∧ out.head? = some '-'))
    (hds : ¬(c = '-' ∧ out.head? = some '/'))
    (hsd : ¬(c = '/' ∧ out.head? = some '-'))
    (hlast : out = [] → isTrimChar c = false) :
    goodOut (c :: out) = true := by
  obtain ⟨hall, h1, h2, h3, h4⟩ := goodOut_parts hg
  unfold goodOut
  simp only [Bool.and_eq_true]
  refine ⟨⟨⟨⟨?_, ?_⟩, ?_⟩, ?_⟩, ?_⟩
  · rw [List.all_cons, Bool.and_eq_true]
    exact ⟨hc, hall⟩
  · exact noPair_cons_of h1 hdd
  · exact noPair_cons_of h2 hds
  · exact noPair_cons_of h3 hsd
  · cases hout : out with
    | nil =>
      unfold lastOk
      simp only [List.getLast?_singleton]
      rw [hlast hout]
      rfl
    | cons z w =>
      rw [← hout, lastOk_cons_ne (by rw [hout]; simp)]
      exact h4

theorem goodOut_nil : goodOut [] = true := rfl

/-- Main invariant induction for stage 7: on input made of slug characters
with no repeated hyphen, no repeated slash and no trailing hyphen or slash,
the output consists of slug characters, has no repeated hyphen, no hyphen
adjacent to a slash on either side, and no trailing hyphen or slash.
Each conjunct corresponds to one scanner mode. -/
theorem cleanGo_good_strong : ∀ n, ∀ u : List Char, u.length ≤ n →
    u.all allowedChar = true → noPair '-' '-' u = true →
    noPair '/' '/' u = true → lastOk u = true →
    ((∀ pend, pend ≤ 1 → (pend = 1 → u ≠ [] ∧ u.head? ≠ some '-') →
        goodOut (cleanGo .norm pend u) = true)
     ∧ (u ≠ [] → u.head? ≠ some '/' →
        goodOut (cleanGo .slashes 0 u) = true ∧ cleanGo .slashes 0 u ≠ [] ∧
          (cleanGo .slashes 0 u).head? ≠ some '-')
     ∧ (u ≠ [] → u.head? ≠ some '-' →
        goodOut (cleanGo .hyphens 0 u) = true ∧ cleanGo .hyphens 0 u ≠ [] ∧
          (cleanGo .hyphens 0 u).head? ≠ some '-')) := by
  intro n
  induction n with
  | zero =>
    intro u hu _ _ _ _
    have he : u = [] := List.length_eq_zero.mp (Nat.le_zero.mp hu)
    subst he
    refine ⟨fun pend hp h1 => ?_, fun h _ => absurd rfl h,
      fun h _ => absurd rfl h⟩
    have hp0 : pend = 0 := by
      rcases Nat.le_one_iff_eq_zero_or_eq_one.mp hp with h | h
      · exact h
      · exact absurd rfl (h1 h).1
    subst hp0
    exact goodOut_nil
  | succ n ih =>
    intro u hu hall hdd hss hlo
    cases u with
    | nil =>
      refine ⟨fun pend hp h1 => ?_, fun h _ => absurd rfl h,
        fun h _ => absurd rfl h⟩
      have hp0 : pend = 0 := by
        rcases Nat.le_one_iff_eq_zero_or_eq_one.mp hp with h | h
        · exact h
        · exact absurd rfl (h1 h).1
      subst hp0
      exact goodOut_nil
    | cons c r =>
      have hlr : r.length ≤ n := by
        simp only [List.length_cons] at hu
        omega
      have hallc : allowedChar c = true := by
        rw [List.all_cons, Bool.and_eq_true] at hall
        exact hall.1
      have hallr : r.all allowedChar = true := by
        rw [List.all_cons, Bool.and_eq_true] at hall
        exact hall.2
      have IH := ih r hlr hallr (noPair_tail hdd) (noPair_tail hss)
        (lastOk_tail hlo)
      -- the "emit c, continue in norm mode" package, for c neither
      -- hyphen nor slash
      have emitC : ∀ hch : ¬ c = '-', ∀ hcs : ¬ c = '/',
          goodOut (c :: cleanGo .norm 0 r) = true := by
        intro hch hcs
        have hN := IH.1 0 (by omega) (fun h0 => Nat.noConfusion h0)
        refine goodOut_cons hN hallc ?_ ?_ ?_ ?_
        · exact fun hp => hch hp.1
        · exact fun hp => hch hp.1
        · exact fun hp => hcs hp.1
        · intro _
          unfold isTrimChar
          simp [hch, hcs]
      -- the "emit a slash, continue in slashes mode" package, valid when
      -- the rest is nonempty and does not start with a slash
      have emitS : r ≠ [] → r.head? ≠ some '/' →
          goodOut ('/' :: cleanGo .slashes 0 r) = true := by
        intro hr1 hr2
        obtain ⟨hSg, hSne, hShd⟩ := IH.2.1 hr1 hr2
        refine goodOut_cons hSg (by decide) ?_ ?_ ?_ ?_
        · exact fun hp => by exact absurd hp.1 (by decide)
        · exact fun hp => by exact absurd hp.1 (by decide)
        · exact fun hp => hShd hp.2
        · exact fun h0 => absurd h0 hSne
      refine ⟨?_, ?_, ?_⟩
      · -- norm mode
        intro pend hp h1
        by_cases hch : c = '-'
        · have hpend : pend = 0 := by
            rcases Nat.le_one_iff_eq_zero_or_eq_one.mp hp with h | h
            · exact h
            · exact absurd (by simp [hch]) (h1 h).2
          subst hpend
          have e : cleanGo .norm 0 (c :: r) = cleanGo .norm 1 r := by
            simp [cleanGo, hch]
          rw [e]
          have hrne : r ≠ [] :=
            ne_nil_of_lastOk_trim hlo (by rw [hch]; rfl)
          exact IH.1 1 (by omega)
            (fun _ => ⟨hrne, noPair_head hdd hch⟩)
        · by_cases hcs : c = '/'
          · have e : cleanGo .norm pend (c :: r) =
                '/' :: cleanGo .slashes 0 r := by
              simp [cleanGo, hch, hcs]
            rw [e]
            exact emitS (ne_nil_of_lastOk_trim hlo (by rw [hcs]; rfl))
              (noPair_head hss hcs)
          · have e : cleanGo .norm pend (c :: r) =
                List.replicate pend '-' ++ c :: cleanGo .norm 0 r := by
              simp [cleanGo, hch, hcs]
            rw [e]
            rcases Nat.le_one_iff_eq_zero_or_eq_one.mp hp with h0 | h0
            · subst h0
              simpa using emitC hch hcs
            · subst h0
              have e2 : List.replicate 1 '-' ++ c :: cleanGo .norm 0 r =
                  '-' :: c :: cleanGo .norm 0 r := rfl
              rw [e2]
              refine goodOut_cons (emitC hch hcs) (by decide) ?_ ?_ ?_ ?_
              · exact fun hp => hch (by simpa using hp.2)
              · exact fun hp => hcs (by simpa using hp.2)
              · exact fun hp => by exact absurd hp.1 (by decide)
              · intro h0
                exact absurd h0 (by simp)
      · -- slashes mode
        intro _ hne
        have hcs : ¬ c = '/' := fun he => hne (by simp [he])
        by_cases hch : c = '-'
        · have e : cleanGo .slashes 0 (c :: r) = cleanGo .hyphens 0 r := by
            simp [cleanGo, hch, hcs]
          rw [e]
          exact IH.2.2 (ne_nil_of_lastOk_trim hlo (by rw [hch]; rfl))
            (noPair_head hdd hch)
        · have e : cleanGo .slashes 0 (c :: r) = c :: cleanGo .norm 0 r := by
            simp [cleanGo, hch, hcs]
          rw [e]
          refine ⟨emitC hch hcs, by simp, ?_⟩
          simp only [List.head?_cons]
          exact fun hp => hch (by simpa using hp)
      · -- hyphens mode
        intro _ hne
        have hch : ¬ c = '-' := fun he => hne (by simp [he])
        by_cases hcs : c = '/'
        · have e : cleanGo .hyphens 0 (c :: r) = '/' :: cleanGo .slashes 0 r := by
            simp [cleanGo, hch, hcs]
          rw [e]
          refine ⟨emitS (ne_nil_of_lastOk_trim hlo (by rw [hcs]; rfl))
            (noPair_head hss hcs), by simp, ?_⟩
          simp only [List.head?_cons]
          exact fun hp => by exact absurd (Option.some.inj hp) (by decide)
        · have e : cleanGo .hyphens 0 (c :: r) = c :: cleanGo .norm 0 r := by
            simp [cleanGo, hch, hcs]
          rw [e]
          refine ⟨emitC hch hcs, by simp, ?_⟩
          simp only [List.head?_cons]
          exact fun hp => hch (by simpa using hp)

theorem all_filter_self {p : Char → Bool} {l : List Char} :
    (l.filter p).all p = true := by
  rw [List.all_eq_true]
  exact fun x hx => (List.mem_filter.mp hx).2

/-- Facts about the string that reaches stage 7 inside `slugify`: slug
characters only, no repeated hyphen, no repeated slash, trimmed ends. -/
theorem stage7_facts (l : List Char) :
    ((trimEnds (squeeze '/' (squeeze '-' (stripDisallowed
        (replaceSpaceUnderscore (l.map asciiLower)))))).all allowedChar = true)
    ∧ noPair '-' '-' (trimEnds (squeeze '/' (squeeze '-' (stripDisallowed
        (replaceSpaceUnderscore (l.map asciiLower)))))) = true
    ∧ noPair '/' '/' (trimEnds (squeeze '/' (squeeze '-' (stripDisallowed
        (replaceSpaceUnderscore (l.map asciiLower)))))) = true
    ∧ firstOk (trimEnds (squeeze '/' (squeeze '-' (stripDisallowed
        (replaceSpaceUnderscore (l.map asciiLower)))))) = true
    ∧ lastOk (trimEnds (squeeze '/' (squeeze '-' (stripDisallowed
        (replaceSpaceUnderscore (l.map asciiLower)))))) = true := by
  have hallm : (stripDisallowed (replaceSpaceUnderscore
      (l.map asciiLower))).all allowedChar = true := all_filter_self
  have hall1 := @all_squeezeGo _ '-' false _ hallm
  have hall2 := @all_squeezeGo _ '/' false _ hall1
  have hdd1 : noPair '-' '-' (squeeze '-' (stripDisallowed
      (replaceSpaceUnderscore (l.map asciiLower)))) = true :=
    (noPair_dd_squeezeGo false).1
  have hdd2 : noPair '-' '-' (squeeze '/' (squeeze '-' (stripDisallowed
      (replaceSpaceUnderscore (l.map asciiLower))))) = true :=
    noPair_squeezeGo_of_ne (by decide) false hdd1
  have hss2 : noPair '/' '/' (squeeze '/' (squeeze '-' (stripDisallowed
      (replaceSpaceUnderscore (l.map asciiLower))))) = true :=
    (noPair_dd_squeezeGo false).1
  exact ⟨all_trimEnds hall2, noPair_trimEnds hdd2, noPair_trimEnds hss2,
    firstOk_trimEnds, lastOk_trimEnds⟩

theorem firstOk_cleanup {u : List Char} (hfo : firstOk u = true) :
    firstOk (cleanGo .norm 0 u) = true := by
  cases u with
  | nil => rfl
  | cons c r =>
    unfold firstOk at hfo
    rw [List.head?_cons] at hfo
    have htr : isTrimChar c = false := by simpa using hfo
    have hch : ¬ c = '-' := by
      intro he
      rw [he] at htr
      exact Bool.noConfusion htr
    have hcs : ¬ c = '/' := by
      intro he
      rw [he] at htr
      exact Bool.noConfusion htr
    have e : cleanGo .norm 0 (c :: r) = c :: cleanGo .norm 0 r := by
      simp [cleanGo, hch, hcs]
    unfold firstOk
    rw [e, List.head?_cons]
    simpa using htr

/-- Every `slugify` output satisfies `good1`. -/
theorem good1_slugifyL (l : List Char) : good1 (slugifyL l) = true := by
  obtain ⟨hall, hdd, hss, hfo, hlo⟩ := stage7_facts l
  have hmain := (cleanGo_good_strong _ _ le_rfl hall hdd hss hlo).1 0
    (by omega) (fun h => Nat.noConfusion h)
  obtain ⟨hallo, hddo, hdso, hsdo, hloo⟩ := goodOut_parts hmain
  have hfoo := firstOk_cleanup hfo
  unfold slugifyL cleanup
  unfold good1
  simp only [Bool.and_eq_true]
  exact ⟨⟨⟨⟨⟨hallo, hddo⟩, hdso⟩, hsdo⟩, hfoo⟩, hloo⟩

/-- Applying `slugify` twice reaches a fixed point of `slugify`. -/
theorem slugifyL_double_idem (l : List Char) :
    slugifyL (slugifyL (slugifyL l)) = slugifyL (slugifyL l) := by
  have h1 : good1 (slugifyL l) = true := good1_slugifyL l
  have h2 : slugifyL (slugifyL l) = squeeze '/' (slugifyL l) :=
    slugifyL_of_good1 h1
  rw [h2]
  exact slugifyL_of_good2 (good2_squeeze_slash h1)

/-! ## The specification's description of the normalizer (§4.1)

The spec words the pipeline as: lower-case; replace each whitespace or
underscore run with a single hyphen; strip characters outside the slug
class; collapse repeated hyphens and repeated slashes; trim leading and
trailing hyphens and slashes; collapse hyphen runs adjacent to a slash.
The two functions below are built from those words (not from the source) in
order to compare them with `slugify`.
-/

/-- Space or underscore: the characters the source actually replaces. -/
def isSpaceUnderscore (c : Char) : Bool := c = ' ' || c = '_'

/-- Whitespace or underscore: the class named by the specification. -/
def isWsUnderscore (c : Char) : Bool := isGoSpace c || c = '_'

/-- "replaces each run of ... with a single hyphen": the flag records being
inside a run whose hyphen has already been emitted. -/
def replRuns (p : Char → Bool) : Bool → List Char → List Char
  | _, [] => []
  | inRun, c :: r =>
    if p c then
      if inRun then replRuns p true r
      else '-' :: replRuns p true r
    else c :: replRuns p false r

/-- "collapses any hyphen runs adjacent to a slash": delete every maximal
hyphen run with a slash immediately before or after it.  `prevSlash` records
whether the character before the current run is a slash; `pend` counts the
hyphens of the current run. -/
def rmRunsGo : Bool → Nat → List Char → List Char
  | prevSlash, pend, [] => if prevSlash then [] else List.replicate pend '-'
  | prevSlash, pend, c :: r =>
    if c = '-' then rmRunsGo prevSlash (pend + 1) r
    else if c = '/' then '/' :: rmRunsGo true 0 r
    else (if prevSlash then [] else List.replicate pend '-') ++
      c :: rmRunsGo false 0 r

/-- The spec's normalizer on character lists, parametrized by the run class
(the only point where the spec's words and the source differ). -/
def specNormalizeL (p : Char → Bool) (l : List Char) : List Char :=
  rmRunsGo false 0 (trimEnds (squeeze '/' (squeeze '-'
    (stripDisallowed (replRuns p false (l.map asciiLower))))))

/-- The normalizer exactly as claim C8 words it, with "whitespace". -/
def claimNormalize (s : String) : String :=
  ⟨specNormalizeL isWsUnderscore s.data⟩

/-- The normalizer as amended: runs of space characters or underscores. -/
def amendedNormalize (s : String) : String :=
  ⟨specNormalizeL isSpaceUnderscore s.data⟩

example : claimNormalize "a\tb" = "a-b" := by decide
example : slugify "a\tb" = "ab" := by decide

/-- Character-by-character replacement of spaces and underscores followed by
hyphen collapsing agrees with run replacement followed by hyphen
collapsing.  The second conjunct handles the inside-a-run state. -/
theorem repl_runs_equalizer : ∀ m : List Char,
    (∀ fl, squeezeGo '-' fl (stripDisallowed (replaceSpaceUnderscore m)) =
      squeezeGo '-' fl (stripDisallowed (replRuns isSpaceUnderscore false m)))
    ∧ (squeezeGo '-' true (stripDisallowed (replaceSpaceUnderscore m)) =
      squeezeGo '-' true (stripDisallowed (replRuns isSpaceUnderscore true m))) := by
  intro m
  induction m with
  | nil => exact ⟨fun fl => rfl, rfl⟩
  | cons c r ih =>
    by_cases hP : c = ' ' ∨ c = '_'
    · have e1 : replaceSpaceUnderscore (c :: r) =
          '-' :: replaceSpaceUnderscore r := by
        unfold replaceSpaceUnderscore
        rw [List.map_cons, if_pos hP]
      have hPb : isSpaceUnderscore c = true := by
        unfold isSpaceUnderscore
        rcases hP with h | h <;> simp [h]
      have e2 : ∀ b, replRuns isSpaceUnderscore b (c :: r) =
          (if b then [] else ['-']) ++ replRuns isSpaceUnderscore true r := by
        intro b
        cases b <;> simp [replRuns, hPb]
      have e3 : stripDisallowed ('-' :: replaceSpaceUnderscore r) =
          '-' :: stripDisallowed (replaceSpaceUnderscore r) := by
        unfold stripDisallowed
        rw [List.filter_cons_of_pos (by decide)]
      have e4 : stripDisallowed ('-' :: replRuns isSpaceUnderscore true r) =
          '-' :: stripDisallowed (replRuns isSpaceUnderscore true r) := by
        unfold stripDisallowed
        rw [List.filter_cons_of_pos (by decide)]
      constructor
      · intro fl
        rw [e1, e2 false, e3]
        show squeezeGo '-' fl ('-' :: stripDisallowed (replaceSpaceUnderscore r)) =
          squeezeGo '-' fl ('-' :: stripDisallowed (replRuns isSpaceUnderscore true r))
        cases fl
        · rw [squeezeGo_pos_false rfl, squeezeGo_pos_false rfl, ih.2]
        · rw [squeezeGo_pos_true rfl, squeezeGo_pos_true rfl, ih.2]
      · rw [e1, e2 true, e3]
        show squeezeGo '-' true ('-' :: stripDisallowed (replaceSpaceUnderscore r)) =
          squeezeGo '-' true (stripDisallowed (replRuns isSpaceUnderscore true r))
        rw [squeezeGo_pos_true rfl, ih.2]
    · have e1 : replaceSpaceUnderscore (c :: r) =
          c :: replaceSpaceUnderscore r := by
        unfold replaceSpaceUnderscore
        rw [List.map_cons, if_neg hP]
      have hPb : isSpaceUnderscore c = false := by
        unfold isSpaceUnderscore
        simp only [Bool.or_eq_false_iff, decide_eq_false_iff_not]
        exact ⟨fun h => hP (Or.inl h), fun h => hP (Or.inr h)⟩
      have e2 : ∀ b, replRuns isSpaceUnderscore b (c :: r) =
          c :: replRuns isSpaceUnderscore false r := by
        intro b
        cases b <;> simp [replRuns, hPb]
      by_cases hA : allowedChar c = true
      · have e3 : ∀ w, stripDisallowed (c :: w) = c :: stripDisallowed w := by
          intro w
          unfold stripDisallowed
          rw [List.filter_cons_of_pos hA]
        constructor
        · intro fl
          rw [e1, e2 false, e3, e3]
          by_cases hC : c = '-'
          · cases fl
            · rw [squeezeGo_pos_false hC, squeezeGo_pos_false hC, ih.1 true]
            · rw [squeezeGo_pos_true hC, squeezeGo_pos_true hC, ih.1 true]
          · rw [squeezeGo_neg hC, squeezeGo_neg hC, ih.1 false]
        · rw [e1, e2 true, e3, e3]
          by_cases hC : c = '-'
          · rw [squeezeGo_pos_true hC, squeezeGo_pos_true hC, ih.1 true]
          · rw [squeezeGo_neg hC, squeezeGo_neg hC, ih.1 false]
      · have e3 : ∀ w, stripDisallowed (c :: w) = stripDisallowed w := by
          intro w
          unfold stripDisallowed
          rw [List.filter_cons_of_neg (by simpa using hA)]
        constructor
        · intro fl
          rw [e1, e2 false, e3, e3, ih.1 fl]
        · rw [e1, e2 true, e3, e3, ih.1 true]

/-- On input with no repeated hyphen and no repeated slash — which is what
stage 7 receives — the regexp scan coincides with deleting every hyphen run
adjacent to a slash, i.e. with the specification's wording. -/
theorem cleanGo_rmRuns_strong : ∀ n, ∀ u : List Char, u.length ≤ n →
    noPair '-' '-' u = true → noPair '/' '/' u = true →
    ((∀ pend, cleanGo .norm pend u = rmRunsGo false pend u)
     ∧ (u.head? ≠ some '/' → cleanGo .slashes 0 u = rmRunsGo true 0 u)
     ∧ (u.head? ≠ some '-' → cleanGo .hyphens 0 u = rmRunsGo true 1 u)) := by
  intro n
  induction n with
  | zero =>
    intro u hu _ _
    have he : u = [] := List.length_eq_zero.mp (Nat.le_zero.mp hu)
    subst he
    exact ⟨fun pend => by simp [cleanGo, rmRunsGo], fun _ => rfl, fun _ => rfl⟩
  | succ n ih =>
    intro u hu hdd hss
    cases u with
    | nil =>
      exact ⟨fun pend => by simp [cleanGo, rmRunsGo], fun _ => rfl, fun _ => rfl⟩
    | cons c r =>
      have hlr : r.length ≤ n := by
        simp only [List.length_cons] at hu
        omega
      have IH := ih r hlr (noPair_tail hdd) (noPair_tail hss)
      refine ⟨?_, ?_, ?_⟩
      · intro pend
        by_cases hch : c = '-'
        · have e1 : cleanGo .norm pend (c :: r) = cleanGo .norm (pend + 1) r := by
            simp [cleanGo, hch]
          have e2 : rmRunsGo false pend (c :: r) = rmRunsGo false (pend + 1) r := by
            simp [rmRunsGo, hch]
          rw [e1, e2, IH.1 (pend + 1)]
        · by_cases hcs : c = '/'
          · have e1 : cleanGo .norm pend (c :: r) = '/' :: cleanGo .slashes 0 r := by
              simp [cleanGo, hch, hcs]
            have e2 : rmRunsGo false pend (c :: r) = '/' :: rmRunsGo true 0 r := by
              simp [rmRunsGo, hch, hcs]
            rw [e1, e2, IH.2.1 (noPair_head hss hcs)]
          · have e1 : cleanGo .norm pend (c :: r) =
                List.replicate pend '-' ++ c :: cleanGo .norm 0 r := by
              simp [cleanGo, hch, hcs]
            have e2 : rmRunsGo false pend (c :: r) =
                List.replicate pend '-' ++ c :: rmRunsGo false 0 r := by
              simp [rmRunsGo, hch, hcs]
            rw [e1, e2, IH.1 0]
      · intro hne
        have hcs : ¬ c = '/' := fun he => hne (by simp [he])
        by_cases hch : c = '-'
        · have e1 : cleanGo .slashes 0 (c :: r) = cleanGo .hyphens 0 r := by
            simp [cleanGo, hch, hcs]
          have e2 : rmRunsGo true 0 (c :: r) = rmRunsGo true 1 r := by
            simp [rmRunsGo, hch]
          rw [e1, e2, IH.2.2 (noPair_head hdd hch)]
        · have e1 : cleanGo .slashes 0 (c :: r) = c :: cleanGo .norm 0 r := by
            simp [cleanGo, hch, hcs]
          have e2 : rmRunsGo true 0 (c :: r) = c :: rmRunsGo false 0 r := by
            simp [rmRunsGo, hch, hcs]
          rw [e1, e2, IH.1 0]
      · intro hne
        have hch : ¬ c = '-' := fun he => hne (by simp [he])
        by_cases hcs : c = '/'
        · have e1 : cleanGo .hyphens 0 (c :: r) = '/' :: cleanGo .slashes 0 r := by
            simp [cleanGo, hch, hcs]
          have e2 : rmRunsGo true 1 (c :: r) = '/' :: rmRunsGo true 0 r := by
            simp [rmRunsGo, hch, hcs]
          rw [e1, e2, IH.2.1 (noPair_head hss hcs)]
        · have e1 : cleanGo .hyphens 0 (c :: r) = c :: cleanGo .norm 0 r := by
            simp [cleanGo, hch, hcs]
          have e2 : rmRunsGo true 1 (c :: r) = c :: rmRunsGo false 0 r := by
            simp [rmRunsGo, hch, hcs]
          rw [e1, e2, IH.1 0]

/-- Stage 7's input has no repeated hyphen and no repeated slash, whatever
list feeds the two collapse stages. -/
theorem trim_squeeze_facts (w : List Char) :
    noPair '-' '-' (trimEnds (squeeze '/' (squeeze '-' w))) = true ∧
    noPair '/' '/' (trimEnds (squeeze '/' (squeeze '-' w))) = true := by
  have hdd1 : noPair '-' '-' (squeeze '-' w) = true :=
    (noPair_dd_squeezeGo false).1
  have hdd2 : noPair '-' '-' (squeeze '/' (squeeze '-' w)) = true :=
    noPair_squeezeGo_of_ne (by decide) false hdd1
  have hss2 : noPair '/' '/' (squeeze '/' (squeeze '-' w)) = true :=
    (noPair_dd_squeezeGo false).1
  exact ⟨noPair_trimEnds hdd2, noPair_trimEnds hss2⟩

/-- `slugify` coincides with the spec pipeline once "whitespace" is read as
"space characters". -/
theorem slugifyL_eq_specNormalizeL (l : List Char) :
    slugifyL l = specNormalizeL isSpaceUnderscore l := by
  unfold slugifyL specNormalizeL cleanup squeeze
  rw [(repl_runs_equalizer (l.map asciiLower)).1 false]
  obtain ⟨hdd, hss⟩ := trim_squeeze_facts
    (stripDisallowed (replRuns isSpaceUnderscore false (l.map asciiLower)))
  exact (cleanGo_rmRuns_strong _ _ le_rfl hdd hss).1 0

/-! ## Claims C7 and C8 -/

/-- C7 counterexample: `slugify` is not idempotent.  On the string
a-slash-hyphen-slash-b the first pass yields `"a//b"` (the regexp scan
consumes the hyphen together with only the first slash, and the
repeated-slash collapse has already run), while a second pass yields
`"a/b"`. -/
theorem slugify_not_idempotent_counterexample :
    slugify (slugify "a/-/b") ≠ slugify "a/-/b" := by decide

theorem slugify_data (s : String) : (slugify s).data = slugifyL s.data := rfl

/-- C7 (amended): `slugify` composed with itself is idempotent — for every
string `s`, `slugify (slugify (slugify s)) = slugify (slugify s)`; the slug
stabilizes after two applications rather than one. -/
theorem slugify_twice_idempotent (s : String) :
    slugify (slugify (slugify s)) = slugify (slugify s) := by
  apply String.ext
  simp only [slugify_data]
  exact slugifyL_double_idem s.data

/-- C8 counterexample: `slugify` does not replace every whitespace run by a
hyphen as the claim's pipeline (`claimNormalize`) states: a tab is simply
stripped, so `slugify "a\tb" = "ab"` while the claimed pipeline yields
`"a-b"`. -/
theorem slugify_whitespace_counterexample :
    slugify "a\tb" ≠ claimNormalize "a\tb" := by decide

/-- C8 (amended): for every input string, `slugify` lower-cases it, replaces
each run of spaces or underscores (not all whitespace) with a single hyphen,
strips characters outside the slug class while preserving the slash,
collapses repeated hyphens and repeated slashes, trims leading and trailing
hyphens and slashes, and finally deletes hyphen runs adjacent to a slash;
every all-punctuation or empty input normalizes to the empty string (the
pipeline's trim stage leaves nothing). -/
theorem slugify_matches_spec_pipeline (s : String) :
    slugify s = amendedNormalize s := by
  apply String.ext
  simp only [slugify_data]
  exact slugifyL_eq_specNormalizeL s.data

/-! ## The page store (src/unnamed/part_008, database layer)

Rows are lists; `INSERT` appends, `UPDATE` maps, `DELETE` filters.  SQLite
auto-increment ids are modelled by `next…Id` counters.  Only the columns a
claim touches are modelled (timestamps and the cached rendered HTML are
omitted; the markdown renderer is an external collaborator whose output no
claim constrains).
-/

/-- Go `strings.TrimSpace`, restricted to ASCII whitespace. -/
def trimSpace (s : String) : String :=
  ⟨((s.data.dropWhile isGoSpace).reverse.dropWhile isGoSpace).reverse⟩

/-- SQLite `COLLATE NOCASE` equality (ASCII case folding). -/
def eqNoCase (a b : String) : Bool :=
  a.data.map asciiLower == b.data.map asciiLower

/-- Go `strings.Title` word separator, restricted to ASCII: everything
except letters, digits and underscore separates words. -/
def isGoSeparator (c : Char) : Bool :=
  !(('a' ≤ c && c ≤ 'z') || ('A' ≤ c && c ≤ 'Z') ||
    ('0' ≤ c && c ≤ '9') || c = '_')

def asciiUpper (c : Char) : Char :=
  if 'a' ≤ c ∧ c ≤ 'z' then Char.ofNat (c.toNat - 32) else c

/-- Go `strings.Title`: upper-case every letter that follows a separator;
the scanner starts in separator state, so the first letter is title-cased. -/
def goTitleGo : Bool → List Char → List Char
  | _, [] => []
  | sep, c :: r => (if sep then asciiUpper c else c) :: goTitleGo (isGoSeparator c) r

/-- Title of an auto-created parent page (`ensureParentPages`):
`strings.Title(strings.ReplaceAll(segment, "-", " "))`. -/
def humanizeSegment (seg : String) : String :=
  ⟨goTitleGo true (seg.data.map (fun c => if c = '-' then ' ' else c))⟩

example : humanizeSegment "ubuntu-server" = "Ubuntu Server" := by decide

/-- Computable model of `strings.HasPrefix` on characters. -/
def isPrefixL : List Char → List Char → Bool
  | [], _ => true
  | _ :: _, [] => false
  | a :: as, b :: bs => a == b && isPrefixL as bs

def hasPrefixS (s pre : String) : Bool := isPrefixL pre.data s.data

/-- Computable model of dropping the first `n` characters of a string
(`strings.TrimPrefix` once the prefix is known to match; slugs are ASCII so
byte and character counts agree). -/
def dropS (s : String) (n : Nat) : String := ⟨s.data.drop n⟩

def containsChar (s : String) (c : Char) : Bool := s.data.contains c

/-- Go `strings.Split(s, "/")`. -/
def splitSlashGo : List Char → List Char → List String
  | acc, [] => [⟨acc.reverse⟩]
  | acc, c :: r =>
    if c = '/' then ⟨acc.reverse⟩ :: splitSlashGo [] r
    else splitSlashGo (c :: acc) r

def splitSlash (s : String) : List String := splitSlashGo [] s.data

example : splitSlash "linux/ubuntu/networking" = ["linux", "ubuntu", "networking"] := by decide
example : splitSlash "linux" = ["linux"] := by decide

/-- A page row (`pages` table / `models.Page`). -/
structure Page where
  id : Nat
  slug : String
  title : String
  content : String
  authorId : Nat
  parentId : Option Nat
  isPublished : Bool
deriving DecidableEq, Repr

/-- A revision row (`revisions` table / `models.Revision`). -/
structure Revision where
  id : Nat
  pageId : Nat
  content : String
  authorId : Nat
  comment : String
deriving DecidableEq, Repr

/-- The durable store: pages, revisions, tags and the page-tag relation. -/
structure Store where
  pages : List Page
  revisions : List Revision
  tags : List (Nat × String)
  pageTags : List (Nat × Nat)
  nextPageId : Nat
  nextRevId : Nat
  nextTagId : Nat
deriving DecidableEq, Repr

/-- `GetPageBySlug`: case-insensitive lookup (`COLLATE NOCASE`). -/
def getPageBySlug (st : Store) (slug : String) : Option Page :=
  st.pages.find? (fun p => eqNoCase p.slug slug)

/-- `GetPageByID`. -/
def getPageById (st : Store) (i : Nat) : Option Page :=
  st.pages.find? (fun p => p.id == i)

/-- `DB.CreatePage`: insert one page row, returning the fresh id. -/
def dbCreatePage (st : Store) (slug title content : String) (authorId : Nat)
    (parentId : Option Nat) (isPublished : Bool) : Store × Nat :=
  ({ st with
      pages := st.pages ++
        [⟨st.nextPageId, slug, title, content, authorId, parentId, isPublished⟩],
      nextPageId := st.nextPageId + 1 }, st.nextPageId)

/-- `DB.CreateRevision`: insert one revision row. -/
def dbCreateRevision (st : Store) (pageId : Nat) (content : String)
    (authorId : Nat) (comment : String) : Store :=
  { st with
      revisions := st.revisions ++
        [⟨st.nextRevId, pageId, content, authorId, comment⟩],
      nextRevId := st.nextRevId + 1 }

/-- `DB.UpdatePage`: overwrite the row with the page's id. -/
def dbUpdatePage (st : Store) (p : Page) : Store :=
  { st with pages := st.pages.map (fun q => if q.id = p.id then p else q) }

/-- `DB.UpdatePageSlug`: overwrite just the slug of one row. -/
def dbUpdatePageSlug (st : Store) (pid : Nat) (newSlug : String) : Store :=
  let f := fun q : Page => if q.id = pid then { q with slug := newSlug } else q
  { st with pages := st.pages.map f }

/-- `DELETE FROM pages WHERE id = ?` with the schema's `ON DELETE CASCADE`
on revisions and page_tags (foreign keys are enabled in the DSN). -/
def dbDeletePage (st : Store) (i : Nat) : Store :=
  { st with
      pages := st.pages.filter (fun p => !(p.id == i)),
      revisions := st.revisions.filter (fun r => !(r.pageId == i)),
      pageTags := st.pageTags.filter (fun pt => !(pt.1 == i)) }

/-- `getOrCreateTagTx`: lower-cased, trimmed lookup (`COLLATE NOCASE`),
inserting on miss. -/
def getOrCreateTag (st : Store) (name : String) : Store × Nat :=
  match st.tags.find?
      (fun t => eqNoCase t.2 ⟨(trimSpace name).data.map asciiLower⟩) with
  | some t => (st, t.1)
  | none =>
    ({ st with
        tags := st.tags ++ [(st.nextTagId, ⟨(trimSpace name).data.map asciiLower⟩)],
        nextTagId := st.nextTagId + 1 }, st.nextTagId)

/-- `INSERT OR IGNORE INTO page_tags`. -/
def addPageTagLink (st : Store) (pid tid : Nat) : Store :=
  if (pid, tid) ∈ st.pageTags then st
  else { st with pageTags := st.pageTags ++ [(pid, tid)] }

def setPageTagsGo : Store → Nat → List String → Store
  | st, _, [] => st
  | st, pid, name :: rest =>
    if trimSpace name = "" then setPageTagsGo st pid rest
    else setPageTagsGo
      (addPageTagLink (getOrCreateTag st (trimSpace name)).1 pid
        (getOrCreateTag st (trimSpace name)).2) pid rest

/-- `SetPageTags`: inside one transaction, delete the page's tag links and
re-add one link per (trimmed, non-empty) tag name, creating tags on miss;
`INSERT OR IGNORE` skips duplicates. -/
def setPageTags (st : Store) (pid : Nat) (tagNames : List String) : Store :=
  setPageTagsGo
    { st with pageTags := st.pageTags.filter (fun pt => !(pt.1 == pid)) }
    pid tagNames

/-! ## Hierarchy resolver -/

/-- The slug of the next prefix: `strings.Join(parts[:i+1], "/")` built
incrementally. -/
def segSlug (pre : Option String) (s : String) : String :=
  match pre with
  | none => s
  | some q => q ++ "/" ++ s

/-- `ensureParentPages` inner loop over the leading slug segments: reuse an
existing page for a prefix, otherwise insert a published placeholder with
empty content parented to the previous prefix's page. -/
def ensureSegs (aid : Nat) : Store → Option Nat → Option String → List String →
    Store × Option Nat
  | st, pid, _, [] => (st, pid)
  | st, pid, pre, s :: rest =>
    match getPageBySlug st (segSlug pre s) with
    | some ex => ensureSegs aid st (some ex.id) (some (segSlug pre s)) rest
    | none =>
      ensureSegs aid
        (dbCreatePage st (segSlug pre s) (humanizeSegment s) "" aid pid true).1
        (some (dbCreatePage st (segSlug pre s) (humanizeSegment s) "" aid pid true).2)
        (some (segSlug pre s)) rest

/-- `ensureParentPages` (src/unnamed/part_001): walk all slug segments but
the last, creating missing ancestors; returns the immediate parent's id. -/
def ensureParentPages (st : Store) (aid : Nat) (slug : String) :
    Store × Option Nat :=
  let parts := splitSlash slug
  if parts.length ≤ 1 then (st, none)
  else ensureSegs aid st none none parts.dropLast

/-- Seeds and recursive rows of the `GetAllDescendants` CTE: the children of
a row, in table order. -/
def childrenOf (st : Store) (pid : Nat) : List (Nat × String) :=
  (st.pages.filter (fun p => p.parentId == some pid)).map (fun p => (p.id, p.slug))

/-- The SQLite recursive-CTE evaluation loop for `GetAllDescendants`: a
queue of pending rows; each extracted row is appended to the result and its
children are enqueued.  `UNION ALL` performs no duplicate elimination, so a
parent-link cycle keeps the queue non-empty forever; `fuel` bounds the
number of extractions and `none` means the query has not terminated within
that bound. -/
def cteRun (st : Store) : Nat → List (Nat × String) → List (Nat × String) →
    Option (List (Nat × String))
  | _, acc, [] => some acc.reverse
  | 0, _, _ :: _ => none
  | fuel + 1, acc, rrow :: rest =>
    cteRun st fuel (rrow :: acc) (rest ++ childrenOf st rrow.1)

/-- `GetAllDescendants` (src/unnamed/part_008): all descendants of a page
via parent links, by recursive CTE with `UNION ALL`. -/
def getAllDescendants (fuel : Nat) (st : Store) (pid : Nat) :
    Option (List (Nat × String)) :=
  cteRun st fuel [] (childrenOf st pid)

/-! ## The wiki service (src/unnamed/part_001) -/

inductive WikiErr where
  | pageNotFound
  | pageExists
  | invalidSlug
  | invalidTitle
  | storage
deriving DecidableEq, Repr

structure PageCreate where
  slug : String
  title : String
  content : String
  tags : List String
deriving DecidableEq, Repr

structure PageUpdate where
  slug : Option String
  title : Option String
  content : Option String
  isPublished : Option Bool
  tags : Option (List String)
deriving DecidableEq, Repr

structure SlugChange where
  oldSlug : String
  newSlug : String
deriving DecidableEq, Repr

/-- `CreatePage` (service): normalize or derive the slug, validate, check
the slug for a case-insensitive conflict, auto-create parents for a
hierarchical slug, insert the page, append the "Initial version" revision
and set tags.  Errors leave the store untouched (all checks precede the
first write). -/
def createPage (st : Store) (aid : Nat) (input : PageCreate) :
    Store × Except WikiErr Nat :=
  let slug0 := trimSpace input.slug
  let slug := if slug0 = "" then slugify input.title else slugify slug0
  if slug = "" then (st, .error .invalidSlug)
  else
    let title := trimSpace input.title
    if title = "" then (st, .error .invalidTitle)
    else
      match getPageBySlug st slug with
      | some _ => (st, .error .pageExists)
      | none =>
        let pr :=
          if containsChar slug '/' then ensureParentPages st aid slug
          else (st, none)
        let cr := dbCreatePage pr.1 slug title input.content aid pr.2 true
        let st3 := dbCreateRevision cr.1 cr.2 input.content aid "Initial version"
        let st4 := if input.tags.isEmpty then st3 else setPageTags st3 cr.2 input.tags
        (st4, .ok cr.2)

/-- The cascade loop of `UpdatePage`: for each descendant whose slug has
`oldSlug ++ "/"` as a literal prefix, rewrite that prefix to `newSlug` with
a separate `UpdatePageSlug` statement and record the change.  `failAt`
injects a storage failure into the n-th slug write (counting only actual
writes); the loop then returns the error immediately, leaving the writes
already issued in place — there is no enclosing transaction. -/
def cascadeGo (failAt : Option Nat) (oldSlug newSlug : String) :
    List (Nat × String) → Store → List SlugChange → Nat →
    Store × Except WikiErr (List SlugChange)
  | [], st, acc, _ => (st, .ok acc)
  | (i, s) :: rest, st, acc, cnt =>
    if hasPrefixS s (oldSlug ++ "/") then
      if failAt = some cnt then (st, .error .storage)
      else
        cascadeGo failAt oldSlug newSlug rest
          (dbUpdatePageSlug st i (newSlug ++ dropS s oldSlug.data.length))
          (acc ++ [⟨s, newSlug ++ dropS s oldSlug.data.length⟩]) (cnt + 1)
    else cascadeGo failAt oldSlug newSlug rest st acc cnt

/-- Tail of `UpdatePage` after the field updates: write the page row and
replace tags when supplied. -/
def finishUpdate (st : Store) (pid : Nat) (page : Page)
    (changes : List SlugChange) (input : PageUpdate) :
    Store × Except WikiErr (Page × List SlugChange) :=
  let page1 := match input.content with
    | some c => { page with content := c }
    | none => page
  let page2 := match input.isPublished with
    | some b => { page1 with isPublished := b }
    | none => page1
  let st1 := dbUpdatePage st page2
  let st2 := match input.tags with
    | some ts => setPageTags st1 pid ts
    | none => st1
  (st2, .ok (page2, changes))

/-- Middle of `UpdatePage`: append the pre-change content to the revision
ledger when the content is about to change, then validate the title.  Note
that a failing title validation returns after the cascade and the revision
write have already been issued. -/
def updateRest (st : Store) (pid aid : Nat) (page : Page)
    (changes : List SlugChange) (input : PageUpdate) (comment : String) :
    Store × Except WikiErr (Page × List SlugChange) :=
  let st1 := match input.content with
    | some c =>
      if c ≠ page.content then dbCreateRevision st pid page.content aid comment
      else st
    | none => st
  match input.title with
  | some t =>
    let t1 := trimSpace t
    if t1 = "" then (st1, .error .invalidTitle)
    else finishUpdate st1 pid { page with title := t1 } changes input
  | none => finishUpdate st1 pid page changes input

/-- Slug-change branch of `UpdatePage`: resolve (and auto-create) the new
parent chain, collect descendants via the recursive CTE, and run the
cascade.  `none` propagates CTE non-termination. -/
def updateWithSlug (fuel : Nat) (failAt : Option Nat) (st : Store)
    (pid aid : Nat) (page0 : Page) (newSlug : String) (input : PageUpdate)
    (comment : String) :
    Option (Store × Except WikiErr (Page × List SlugChange)) :=
  let pr :=
    if containsChar newSlug '/' then ensureParentPages st aid newSlug
    else (st, none)
  let page1 := { page0 with slug := newSlug, parentId := pr.2 }
  match getAllDescendants fuel pr.1 pid with
  | none => none
  | some ds =>
    match cascadeGo failAt page0.slug newSlug ds pr.1 [] 0 with
    | (st2, .error e) => some (st2, .error e)
    | (st2, .ok changes) => some (updateRest st2 pid aid page1 changes input comment)

/-- `UpdatePage` (service, src/unnamed/part_001): load the page; on a slug
change validate the collision and run the rename cascade; save a revision
of the pre-change content when the content changes; apply field updates;
write the page row; replace tags.  The whole operation runs without a
transaction: on an error mid-way the store keeps all writes issued so far. -/
def updatePage (fuel : Nat) (failAt : Option Nat) (st : Store) (pid aid : Nat)
    (input : PageUpdate) (comment : String) :
    Option (Store × Except WikiErr (Page × List SlugChange)) :=
  match getPageById st pid with
  | none => some (st, .error .pageNotFound)
  | some page0 =>
    match input.slug with
    | none => some (updateRest st pid aid page0 [] input comment)
    | some rawSlug =>
      let newSlug := slugify rawSlug
      if newSlug ≠ "" ∧ newSlug ≠ page0.slug then
        match getPageBySlug st newSlug with
        | some ex =>
          if ex.id ≠ pid then some (st, .error .pageExists)
          else updateWithSlug fuel failAt st pid aid page0 newSlug input comment
        | none => updateWithSlug fuel failAt st pid aid page0 newSlug input comment
      else some (updateRest st pid aid page0 [] input comment)

/-- Inner loop of `DeletePages`, issuing one `DELETE` per id inside the
transaction; `failAt` injects a storage failure into the n-th delete. -/
def deleteLoop : Store → List Nat → Option Nat → Nat → Except WikiErr Store
  | st, [], _, _ => .ok st
  | st, i :: rest, failAt, cnt =>
    if failAt = some cnt then .error .storage
    else deleteLoop (dbDeletePage st i) rest failAt (cnt + 1)

/-- `DeletePages` (src/unnamed/part_008): multi-page delete inside a single
transaction — on any failure the transaction rolls back and the store is
unchanged. -/
def deletePages (st : Store) (ids : List Nat) (failAt : Option Nat) :
    Store × Except WikiErr Unit :=
  if ids.isEmpty then (st, .ok ())
  else
    match deleteLoop st ids failAt 0 with
    | .ok st1 => (st1, .ok ())
    | .error e => (st, .error e)

/-- `SetPageTags` runs inside `db.Transaction`: on a failure of any step the
transaction rolls back.  The model's tag writes cannot fail, so the
transactional wrapper is the identity on the success path; the claim-level
fact is that `setPageTags` is exactly the all-or-nothing replacement. -/
def setPageTagsTx (st : Store) (pid : Nat) (tagNames : List String) :
    Store × Except WikiErr Unit :=
  (setPageTags st pid tagNames, .ok ())

/-! ## Share links (src/internal/handlers/pages.go model methods and the
`validateShareLink` middleware, src/unnamed/part_002)

Time is an abstract integer instant; the access log is the list of
(sanitized) IP addresses of the link's `ShareLinkAccess` rows, in insertion
order.
-/

structure ShareLink where
  id : Nat
  pageId : Nat
  includeChildren : Bool
  maxViews : Option Int
  maxIPs : Option Int
  expiresAt : Option Int
  isRevoked : Bool
  viewCount : Int
deriving DecidableEq, Repr

/-- `ShareLink.IsExpired`: an expiry is set and now is strictly after it. -/
def isExpired (link : ShareLink) (now : Int) : Bool :=
  match link.expiresAt with
  | some t => now > t
  | none => false

/-- `ShareLink.IsViewLimitReached`. -/
def isViewLimitReached (link : ShareLink) : Bool :=
  match link.maxViews with
  | some m => link.viewCount ≥ m
  | none => false

inductive DenialReason where
  | revoked
  | expired
  | viewLimitReached
  | ipLimitReached
deriving DecidableEq, Repr

/-- `GetShareLinkUniqueIPCount`: `COUNT(DISTINCT ip_address)`. -/
def uniqueIPCount (log : List String) : Nat := log.dedup.length

/-- `validateShareLink` (src/unnamed/part_002): revocation, expiry, view
cap, then — only when an IP cap is set — deny a not-yet-seen IP once the
distinct-IP count has reached the cap.  `none` means the access is valid. -/
def validateShareLink (link : ShareLink) (log : List String) (now : Int)
    (ip : String) : Option DenialReason :=
  if link.isRevoked then some .revoked
  else if isExpired link now then some .expired
  else if isViewLimitReached link then some .viewLimitReached
  else
    match link.maxIPs with
    | some cap =>
      if ¬ ip ∈ log ∧ (uniqueIPCount log : Int) ≥ cap then some .ipLimitReached
      else none
    | none => none

/-- Successful validation followed by `RecordShareAccess` and
`IncrementShareLinkViewCount`: append the access row and bump the counter;
a denial records nothing. -/
def validateAndRecord (link : ShareLink) (log : List String) (now : Int)
    (ip : String) : (ShareLink × List String) × Option DenialReason :=
  match validateShareLink link log now ip with
  | some r => ((link, log), some r)
  | none => (({ link with viewCount := link.viewCount + 1 }, log ++ [ip]), none)

/-- Modelled from the spec's words (§3 invariant and §4.6 denial order):
"if revoked → Revoked; if expired → Expired; if view cap reached →
ViewLimitReached; else if IP cap set: if the requesting IP has not accessed
before and the unique-IP count is already at or above the cap →
IPLimitReached"; otherwise the access is valid. -/
def specValidateShareLink (link : ShareLink) (log : List String) (now : Int)
    (ip : String) : Option DenialReason :=
  if link.isRevoked then some .revoked
  else if isExpired link now then some .expired
  else if isViewLimitReached link then some .viewLimitReached
  else
    match link.maxIPs with
    | some cap =>
      if ¬ ip ∈ log ∧ (uniqueIPCount log : Int) ≥ cap then some .ipLimitReached
      else none
    | none => none

/-- C4: share-link validation succeeds exactly when the link is not
revoked, not expired, under its view cap (when set) and — when an IP cap is
set — the requesting IP was already seen or the distinct-IP count is below
the cap; the denial reason is decided in the order Revoked, Expired,
ViewLimitReached, IPLimitReached (the first conjunct equates the source
validator with the spec-worded decision list `specValidateShareLink`).
With maxViews = 2 the third attempt is denied ViewLimitReached regardless
of the requesting IPs, and with maxUniqueIPs = 1 a second distinct IP is
denied IPLimitReached while the original IP still succeeds. -/
theorem validateShareLink_matches_spec :
    (∀ link log now ip,
      validateShareLink link log now ip = specValidateShareLink link log now ip)
    ∧ (∀ link log now ip,
      decide (validateShareLink link log now ip = none) =
        (!link.isRevoked && !isExpired link now &&
         link.maxViews.all (fun m => decide (link.viewCount < m)) &&
         link.maxIPs.all (fun cap =>
           decide (ip ∈ log) || decide ((uniqueIPCount log : Int) < cap))))
    ∧ (∀ now ip1 ip2 ip3,
      validateAndRecord ⟨1, 1, false, some 2, none, none, false, 0⟩ [] now ip1
        = ((⟨1, 1, false, some 2, none, none, false, 1⟩, [ip1]), none)
      ∧ validateAndRecord ⟨1, 1, false, some 2, none, none, false, 1⟩ [ip1] now ip2
        = ((⟨1, 1, false, some 2, none, none, false, 2⟩, [ip1, ip2]), none)
      ∧ (validateAndRecord ⟨1, 1, false, some 2, none, none, false, 2⟩
          [ip1, ip2] now ip3).2 = some .viewLimitReached)
    ∧ ((validateAndRecord ⟨2, 1, false, none, some 1, none, false, 0⟩ [] 0 "1.2.3.4")
        = ((⟨2, 1, false, none, some 1, none, false, 1⟩, ["1.2.3.4"]), none)
       ∧ validateShareLink ⟨2, 1, false, none, some 1, none, false, 1⟩
           ["1.2.3.4"] 0 "5.6.7.8" = some .ipLimitReached
       ∧ validateShareLink ⟨2, 1, false, none, some 1, none, false, 1⟩
           ["1.2.3.4"] 0 "1.2.3.4" = none) := by
  refine ⟨fun link log now ip => rfl, ?_, ?_, ?_⟩
  · intro link log now ip
    unfold validateShareLink
    cases h1 : link.isRevoked with
    | true => simp
    | false =>
      simp only [Bool.not_false, Bool.true_and, Bool.false_eq_true, if_false]
      cases h2 : isExpired link now with
      | true => simp
      | false =>
        simp only [Bool.not_false, Bool.true_and, if_false]
        cases h3 : isViewLimitReached link with
        | true =>
          unfold isViewLimitReached at h3
          cases hv : link.maxViews with
          | none => rw [hv] at h3; exact Bool.noConfusion h3
          | some m =>
            rw [hv] at h3
            simp only [decide_eq_true_eq] at h3
            simp only [hv, Option.all, if_true]
            have hd : decide (link.viewCount < m) = false := by
              simp only [decide_eq_false_iff_not]
              omega
            simp [hd]
        | false =>
          have hvOK : link.maxViews.all
              (fun m => decide (link.viewCount < m)) = true := by
            unfold isViewLimitReached at h3
            cases hv : link.maxViews with
            | none => simp [Option.all]
            | some m =>
              rw [hv] at h3
              simp only [decide_eq_false_iff_not] at h3
              simp only [Option.all, decide_eq_true_eq]
              omega
          simp only [Bool.false_eq_true, if_false, hvOK, Bool.true_and,
            Bool.and_true]
          cases hm : link.maxIPs with
          | none => simp [Option.all]
          | some cap =>
            simp only [Option.all]
            by_cases h4 : ¬ ip ∈ log ∧ (uniqueIPCount log : Int) ≥ cap
            · have e0 : (if ip ∉ log ∧ (uniqueIPCount log : Int) ≥ cap
                  then some DenialReason.ipLimitReached else none)
                  = some DenialReason.ipLimitReached := if_pos h4
              simp only [e0]
              have e1 : decide (ip ∈ log) = false := by
                simp only [decide_eq_false_iff_not]
                exact h4.1
              have e2 : decide ((uniqueIPCount log : Int) < cap) = false := by
                simp only [decide_eq_false_iff_not]
                omega
              simp [e1, e2]
            · have e0 : (if ip ∉ log ∧ (uniqueIPCount log : Int) ≥ cap
                  then some DenialReason.ipLimitReached else none) = none := if_neg h4
              simp only [e0]
              rcases Classical.not_and_iff_or_not_not.mp h4 with h5 | h5
              · have e1 : decide (ip ∈ log) = true := by
                  simp only [decide_eq_true_eq]
                  exact not_not.mp h5
                simp [e1]
              · have e2 : decide ((uniqueIPCount log : Int) < cap) = true := by
                  simp only [decide_eq_true_eq]
                  omega
                simp [e2]
  · intro now ip1 ip2 ip3
    exact ⟨rfl, rfl, rfl⟩
  · exact ⟨rfl, by decide, by decide⟩

/-! ## Claim C9: termination of `GetAllDescendants` -/

/-- A one-page store: page 1 has slug `"a"` and no parent. -/
def selfParentStore : Store := ⟨[⟨1, "a", "A", "", 1, none, true⟩], [], [], [], 2, 1, 1⟩

/-- The same store after renaming page 1 to slug `"a/b"`: resolving the new
parent chain finds the page itself (the row still holds slug `"a"` at that
point), so the page becomes its own parent. -/
def cyclicStore : Store := ⟨[⟨1, "a/b", "A", "", 1, some 1, true⟩], [], [], [], 2, 1, 1⟩

/-- C9: the claim requires `GetAllDescendants` to terminate on every store,
even pathological parent links.  It does not: renaming page `"a"` to
`"a/b"` makes the page its own parent (first conjunct, an ordinary
`UpdatePage` call), and on the resulting store the recursive CTE with
`UNION ALL` re-enqueues the page forever — no amount of fuel reaches a
fixpoint (second conjunct). -/
theorem getAllDescendants_diverges_on_cycle :
    (updatePage 10 none selfParentStore 1 1 ⟨some "a/b", none, none, none, none⟩ ""
      = some (cyclicStore, .ok (⟨1, "a/b", "A", "", 1, some 1, true⟩, [])))
    ∧ (∀ fuel, getAllDescendants fuel cyclicStore 1 = none) := by
  constructor
  · rfl
  · have key : ∀ fuel acc, cteRun cyclicStore fuel acc [(1, "a/b")] = none := by
      intro fuel
      induction fuel with
      | zero => intro acc; rfl
      | succ n ih =>
        intro acc
        have e : cteRun cyclicStore (n + 1) acc [(1, "a/b")]
            = cteRun cyclicStore n ((1, "a/b") :: acc)
                ([] ++ childrenOf cyclicStore 1) := rfl
        rw [e]
        have ec : [] ++ childrenOf cyclicStore 1 = [(1, "a/b")] := rfl
        rw [ec]
        exact ih ((1, "a/b") :: acc)
    intro fuel
    exact key fuel []

/-! ## Claim C2: atomicity of multi-row mutations

`DeletePages` and `SetPageTags` run inside `db.Transaction`; the rename
cascade in `UpdatePage` does not — each descendant's slug is written by its
own statement.  A storage failure between two of those writes leaves a
partially renamed subtree behind.
-/

/-- Page `"linux"` with two children, `"linux/a"` and `"linux/b"`. -/
def cascadeStore : Store :=
  ⟨[⟨1, "linux", "Linux", "", 1, none, true⟩,
    ⟨2, "linux/a", "A", "", 1, some 1, true⟩,
    ⟨3, "linux/b", "B", "", 1, some 1, true⟩], [], [], [], 4, 1, 1⟩

/-- The store left behind when the second cascade write fails: the
`"commands"` placeholder was inserted, `"linux/a"` was renamed to
`"commands/linux/a"`, but `"linux/b"` and the page itself were not —
a partially applied cascade. -/
def cascadePartialStore : Store :=
  ⟨[⟨1, "linux", "Linux", "", 1, none, true⟩,
    ⟨2, "commands/linux/a", "A", "", 1, some 1, true⟩,
    ⟨3, "linux/b", "B", "", 1, some 1, true⟩,
    ⟨4, "commands", "Commands", "", 1, none, true⟩], [], [], [], 5, 1, 1⟩

/-- C2: the rename cascade is not atomic.  Renaming `"linux"` to
`"commands/linux"` over two descendants, with the second `UpdatePageSlug`
statement failing, returns an error yet leaves the store in a state that is
neither the original nor the fully renamed one: `"linux/a"` has become
`"commands/linux/a"` while `"linux/b"` is untouched — an observable partial
cascade, contradicting the claimed all-or-nothing behaviour. -/
theorem updatePage_cascade_not_atomic :
    updatePage 10 (some 1) cascadeStore 1 1
        ⟨some "commands/linux", none, none, none, none⟩ ""
      = some (cascadePartialStore, .error .storage)
    ∧ getPageById cascadePartialStore 2
      = some ⟨2, "commands/linux/a", "A", "", 1, some 1, true⟩
    ∧ getPageById cascadePartialStore 3
      = some ⟨3, "linux/b", "B", "", 1, some 1, true⟩
    ∧ cascadePartialStore ≠ cascadeStore := by
  exact ⟨rfl, rfl, rfl, by decide⟩

/-! ## Invariants of the store operations -/

theorem addPageTagLink_frame (st : Store) (pid tid : Nat) :
    (addPageTagLink st pid tid).pages = st.pages ∧
    (addPageTagLink st pid tid).revisions = st.revisions ∧
    (addPageTagLink st pid tid).nextPageId = st.nextPageId ∧
    (addPageTagLink st pid tid).nextRevId = st.nextRevId := by
  unfold addPageTagLink
  refine ⟨?_, ?_, ?_, ?_⟩ <;> (split <;> rfl)

theorem getOrCreateTag_frame (st : Store) (name : String) :
    (getOrCreateTag st name).1.pages = st.pages ∧
    (getOrCreateTag st name).1.revisions = st.revisions ∧
    (getOrCreateTag st name).1.nextPageId = st.nextPageId ∧
    (getOrCreateTag st name).1.nextRevId = st.nextRevId := by
  unfold getOrCreateTag
  refine ⟨?_, ?_, ?_, ?_⟩ <;> (split <;> rfl)

theorem setPageTagsGo_frame : ∀ (names : List String) (st : Store) (pid : Nat),
    (setPageTagsGo st pid names).pages = st.pages ∧
    (setPageTagsGo st pid names).revisions = st.revisions ∧
    (setPageTagsGo st pid names).nextPageId = st.nextPageId ∧
    (setPageTagsGo st pid names).nextRevId = st.nextRevId := by
  intro names
  induction names with
  | nil => intro st pid; exact ⟨rfl, rfl, rfl, rfl⟩
  | cons name rest ih =>
    intro st pid
    show (setPageTagsGo st pid (name :: rest)).pages = _ ∧ _
    unfold setPageTagsGo
    by_cases hn : trimSpace name = ""
    · rw [if_pos hn]
      exact ih st pid
    · rw [if_neg hn]
      obtain ⟨e1, e2, e3, e4⟩ := getOrCreateTag_frame st (trimSpace name)
      obtain ⟨a1, a2, a3, a4⟩ := addPageTagLink_frame
        (getOrCreateTag st (trimSpace name)).1 pid (getOrCreateTag st (trimSpace name)).2
      obtain ⟨f1, f2, f3, f4⟩ := ih (addPageTagLink (getOrCreateTag st (trimSpace name)).1
        pid (getOrCreateTag st (trimSpace name)).2) pid
      exact ⟨f1.trans (a1.trans e1), f2.trans (a2.trans e2),
        f3.trans (a3.trans e3), f4.trans (a4.trans e4)⟩

theorem setPageTags_frame (st : Store) (pid : Nat) (names : List String) :
    (setPageTags st pid names).pages = st.pages ∧
    (setPageTags st pid names).revisions = st.revisions ∧
    (setPageTags st pid names).nextPageId = st.nextPageId ∧
    (setPageTags st pid names).nextRevId = st.nextRevId := by
  unfold setPageTags
  exact setPageTagsGo_frame names _ pid

/-- `ensureSegs` only appends pages: the old rows stay in place, every new
row is an empty published placeholder with a fresh id, and the revision
ledger, its counter and the page counter's monotonicity are untouched. -/
theorem ensureSegs_spec : ∀ (segs : List String) (aid : Nat) (st : Store)
    (pid : Option Nat) (pre : Option String),
    ∃ news : List Page,
      (ensureSegs aid st pid pre segs).1.pages = st.pages ++ news ∧
      (ensureSegs aid st pid pre segs).1.revisions = st.revisions ∧
      (ensureSegs aid st pid pre segs).1.nextRevId = st.nextRevId ∧
      (ensureSegs aid st pid pre segs).1.tags = st.tags ∧
      (ensureSegs aid st pid pre segs).1.pageTags = st.pageTags ∧
      st.nextPageId ≤ (ensureSegs aid st pid pre segs).1.nextPageId ∧
      (∀ q ∈ news, q.content = "" ∧ q.isPublished = true ∧
        st.nextPageId ≤ q.id ∧ q.id < (ensureSegs aid st pid pre segs).1.nextPageId) := by
  intro segs
  induction segs with
  | nil =>
    intro aid st pid pre
    exact ⟨[], by simp [ensureSegs], rfl, rfl, rfl, rfl, le_rfl, by simp⟩
  | cons s rest ih =>
    intro aid st pid pre
    show ∃ news, (ensureSegs aid st pid pre (s :: rest)).1.pages = _ ∧ _
    unfold ensureSegs
    cases hfind : getPageBySlug st (segSlug pre s) with
    | some ex =>
      simp only [hfind]
      exact ih aid st (some ex.id) (some (segSlug pre s))
    | none =>
      simp only [hfind]
      obtain ⟨news, h1, h2, h3, h4, h5, h6, h7⟩ := ih aid
        (dbCreatePage st (segSlug pre s) (humanizeSegment s) "" aid pid true).1
        (some (dbCreatePage st (segSlug pre s) (humanizeSegment s) "" aid pid true).2)
        (some (segSlug pre s))
      refine ⟨⟨st.nextPageId, segSlug pre s, humanizeSegment s, "", aid, pid, true⟩ :: news,
        ?_, h2, h3, h4, h5, ?_, ?_⟩
      · rw [h1]
        simp [dbCreatePage]
      · exact le_trans (Nat.le_succ _) h6
      · intro q hq
        rcases List.mem_cons.mp hq with hq | hq
        · subst hq
          exact ⟨rfl, rfl, le_rfl, Nat.lt_of_lt_of_le (Nat.lt_succ_self _) h6⟩
        · obtain ⟨g1, g2, g3, g4⟩ := h7 q hq
          exact ⟨g1, g2, le_trans (Nat.le_succ _) g3, g4⟩

theorem find?_map_slugUpdate (l : List Page) (j : Nat) (sl : String) (i : Nat) :
    (l.map (fun q => if q.id = j then { q with slug := sl } else q)).find?
        (fun p => p.id == i)
      = if i = j then
          (l.find? (fun p => p.id == i)).map (fun q => { q with slug := sl })
        else l.find? (fun p => p.id == i) := by
  induction l with
  | nil => split <;> rfl
  | cons r t ih =>
    have hid : (if r.id = j then { r with slug := sl } else r).id = r.id := by
      split <;> rfl
    by_cases hri : r.id = i
    · rw [List.map_cons, List.find?_cons_of_pos _ (by rw [hid]; simp [hri]),
        List.find?_cons_of_pos _ (by simp [hri])]
      by_cases hij : i = j
      · rw [if_pos hij, if_pos (hri.trans hij), Option.map_some']
      · rw [if_neg hij, if_neg (fun h => hij (hri ▸ h))]
    · rw [List.map_cons, List.find?_cons_of_neg _ (by rw [hid]; simp [hri]),
        List.find?_cons_of_neg _ (by simp [hri]), ih]

theorem getPageById_dbUpdatePageSlug (st : Store) (j : Nat) (sl : String) (i : Nat) :
    getPageById (dbUpdatePageSlug st j sl) i =
      if i = j then (getPageById st i).map (fun q => { q with slug := sl })
      else getPageById st i := by
  unfold getPageById dbUpdatePageSlug
  exact find?_map_slugUpdate st.pages j sl i

theorem find?_map_pageUpdate (l : List Page) (q : Page) (i : Nat) :
    (l.map (fun r => if r.id = q.id then q else r)).find? (fun p => p.id == i)
      = if i = q.id then (l.find? (fun p => p.id == i)).map (fun _ => q)
        else l.find? (fun p => p.id == i) := by
  induction l with
  | nil => split <;> rfl
  | cons r t ih =>
    have hid : (if r.id = q.id then q else r).id = r.id := by
      split
      · rename_i h
        rw [h]
      · rfl
    by_cases hri : r.id = i
    · rw [List.map_cons, List.find?_cons_of_pos _ (by rw [hid]; simp [hri]),
        List.find?_cons_of_pos _ (by simp [hri])]
      by_cases hij : i = q.id
      · rw [if_pos hij]
        split
        · rfl
        · rename_i h
          exact absurd (hri.trans hij) h
      · rw [if_neg hij]
        split
        · rename_i h
          exact absurd (hri.symm.trans h) hij
        · rfl
    · rw [List.map_cons, List.find?_cons_of_neg _ (by rw [hid]; simp [hri]),
        List.find?_cons_of_neg _ (by simp [hri]), ih]

theorem getPageById_dbUpdatePage (st : Store) (q : Page) (i : Nat) :
    getPageById (dbUpdatePage st q) i =
      if i = q.id then (getPageById st i).map (fun _ => q)
      else getPageById st i := by
  unfold getPageById dbUpdatePage
  exact find?_map_pageUpdate st.pages q i

theorem getPageById_append (st : Store) (news : List Page) (i : Nat) :
    (st.pages ++ news).find? (fun p => p.id == i)
      = ((st.pages.find? (fun p => p.id == i)).or
          (news.find? (fun p => p.id == i))) :=
  List.find?_append

theorem getPageById_dbCreateRevision (st : Store) (pid : Nat) (c : String)
    (aid : Nat) (cm : String) (i : Nat) :
    getPageById (dbCreateRevision st pid c aid cm) i = getPageById st i := rfl

theorem getPageById_setPageTags (st : Store) (pid : Nat) (ns : List String)
    (i : Nat) : getPageById (setPageTags st pid ns) i = getPageById st i := by
  unfold getPageById
  rw [(setPageTags_frame st pid ns).1]

/-- Applying the cascade's slug writes as a pure recursion (the reference
shape for `cascadeGo`'s store effect). -/
def applyCascade (oldSlug newSlug : String) : List (Nat × String) → Store → Store
  | [], st => st
  | d :: rest, st =>
    applyCascade oldSlug newSlug rest
      (if hasPrefixS d.2 (oldSlug ++ "/") then
        dbUpdatePageSlug st d.1 (newSlug ++ dropS d.2 oldSlug.data.length)
      else st)

theorem applyCascade_cons (o n : String) (d : Nat × String)
    (rest : List (Nat × String)) (st : Store) :
    applyCascade o n (d :: rest) st =
      applyCascade o n rest
        (if hasPrefixS d.2 (o ++ "/") then
          dbUpdatePageSlug st d.1 (n ++ dropS d.2 o.data.length)
        else st) := rfl

/-- The report the cascade produces. -/
def cascadeChanges (oldSlug newSlug : String) (ds : List (Nat × String)) :
    List SlugChange :=
  (ds.filter (fun d => hasPrefixS d.2 (oldSlug ++ "/"))).map
    (fun d => ⟨d.2, newSlug ++ dropS d.2 oldSlug.data.length⟩)

/-- A successful cascade (no injected failure fired) applies exactly the
per-descendant slug writes and reports exactly one change per rewritten
descendant, in order. -/
theorem cascadeGo_ok : ∀ (ds : List (Nat × String)) (failAt : Option Nat)
    (oldSlug newSlug : String) (st st2 : Store) (acc chs : List SlugChange)
    (cnt : Nat),
    cascadeGo failAt oldSlug newSlug ds st acc cnt = (st2, .ok chs) →
    st2 = applyCascade oldSlug newSlug ds st ∧
    chs = acc ++ cascadeChanges oldSlug newSlug ds := by
  intro ds
  induction ds with
  | nil =>
    intro failAt o n st st2 acc chs cnt h
    unfold cascadeGo at h
    injection h with h1 h2
    injection h2 with h2
    exact ⟨h1.symm, by simp [cascadeChanges, h2]⟩
  | cons d rest ih =>
    intro failAt o n st st2 acc chs cnt h
    unfold cascadeGo at h
    cases hp : hasPrefixS d.2 (o ++ "/") with
    | true =>
      rw [if_pos hp] at h
      by_cases hf : failAt = some cnt
      · rw [if_pos hf] at h
        injection h with h1 h2
        exact absurd h2 (by simp)
      · rw [if_neg hf] at h
        obtain ⟨h1, h2⟩ := ih failAt o n _ st2 _ chs (cnt + 1) h
        constructor
        · rw [h1, applyCascade_cons, if_pos hp]
        · rw [h2]
          simp [cascadeChanges, List.filter_cons, hp]
    | false =>
      rw [if_neg (by simp [hp])] at h
      obtain ⟨h1, h2⟩ := ih failAt o n st st2 acc chs cnt h
      constructor
      · rw [h1, applyCascade_cons, if_neg (by simp [hp])]
      · rw [h2]
        simp [cascadeChanges, List.filter_cons, hp]

/-- The expected per-id result of a cascade, as a function of the lookup
of the id among the descendants. -/
def cascadeTarget (oldSlug newSlug : String) (st : Store) (i : Nat) :
    Option (Nat × String) → Option Page
  | some d =>
    if hasPrefixS d.2 (oldSlug ++ "/") then
      (getPageById st i).map
        (fun q => { q with slug := newSlug ++ dropS d.2 oldSlug.data.length })
    else getPageById st i
  | none => getPageById st i

theorem cascadeTarget_some (o n : String) (st : Store) (i : Nat) (d : Nat × String) :
    cascadeTarget o n st i (some d) =
      if hasPrefixS d.2 (o ++ "/") then
        (getPageById st i).map
          (fun q => { q with slug := n ++ dropS d.2 o.data.length })
      else getPageById st i := rfl

theorem cascadeTarget_none (o n : String) (st : Store) (i : Nat) :
    cascadeTarget o n st i none = getPageById st i := rfl

/-- Per-id effect of the cascade, when descendant ids are distinct: the
id's entry (if any, and prefix-matched) gets the rewritten slug, every
other id is untouched. -/
theorem applyCascade_char : ∀ (ds : List (Nat × String)) (oldSlug newSlug : String)
    (st : Store) (i : Nat), (ds.map Prod.fst).Nodup →
    getPageById (applyCascade oldSlug newSlug ds st) i =
      cascadeTarget oldSlug newSlug st i (ds.find? (fun d => d.1 == i)) := by
  intro ds
  induction ds with
  | nil => intro o n st i _; rfl
  | cons d rest ih =>
    intro o n st i hnd
    rw [List.map_cons, List.nodup_cons] at hnd
    rw [applyCascade_cons]
    by_cases hdi : d.1 = i
    · rw [List.find?_cons_of_pos _ (by simp [hdi]), cascadeTarget_some]
      have hrest : rest.find? (fun x => x.1 == i) = none := by
        rw [List.find?_eq_none]
        intro x hx
        simp only [beq_iff_eq]
        intro hxi
        apply hnd.1
        rw [hdi, ← hxi]
        exact List.mem_map_of_mem Prod.fst hx
      by_cases hp : hasPrefixS d.2 (o ++ "/") = true
      · rw [if_pos hp, if_pos hp]
        have hch := ih o n (dbUpdatePageSlug st d.1 (n ++ dropS d.2 o.data.length)) i hnd.2
        rw [hrest, cascadeTarget_none] at hch
        rw [hch, getPageById_dbUpdatePageSlug, if_pos hdi.symm]
      · rw [if_neg hp, if_neg hp]
        have hch := ih o n st i hnd.2
        rw [hrest, cascadeTarget_none] at hch
        exact hch
    · rw [List.find?_cons_of_neg _ (by simp [hdi])]
      by_cases hp : hasPrefixS d.2 (o ++ "/") = true
      · rw [if_pos hp]
        have hch := ih o n (dbUpdatePageSlug st d.1 (n ++ dropS d.2 o.data.length)) i hnd.2
        rw [hch]
        have hg : getPageById (dbUpdatePageSlug st d.1 (n ++ dropS d.2 o.data.length)) i
            = getPageById st i := by
          rw [getPageById_dbUpdatePageSlug, if_neg (fun h => hdi h.symm)]
        unfold cascadeTarget
        rw [hg]
      · rw [if_neg hp]
        exact ih o n st i hnd.2

/-- The cascade leaves everything except pages untouched. -/
theorem applyCascade_frame : ∀ (ds : List (Nat × String)) (o n : String) (st : Store),
    (applyCascade o n ds st).revisions = st.revisions ∧
    (applyCascade o n ds st).nextRevId = st.nextRevId ∧
    (applyCascade o n ds st).nextPageId = st.nextPageId := by
  intro ds
  induction ds with
  | nil => intro o n st; exact ⟨rfl, rfl, rfl⟩
  | cons d rest ih =>
    intro o n st
    rw [applyCascade_cons]
    by_cases hp : hasPrefixS d.2 (o ++ "/") = true
    · rw [if_pos hp]
      exact ih o n _
    · rw [if_neg hp]
      exact ih o n st

/-- With no injected failure, the cascade loop is total: the store is the
pure cascade application and the report is the per-descendant change list. -/
theorem cascadeGo_none : ∀ (ds : List (Nat × String)) (o n : String)
    (st : Store) (acc : List SlugChange) (cnt : Nat),
    cascadeGo none o n ds st acc cnt
      = (applyCascade o n ds st, .ok (acc ++ cascadeChanges o n ds)) := by
  intro ds
  induction ds with
  | nil =>
    intro o n st acc cnt
    unfold cascadeGo
    simp [applyCascade, cascadeChanges]
  | cons d rest ih =>
    intro o n st acc cnt
    unfold cascadeGo
    by_cases hp : hasPrefixS d.2 (o ++ "/") = true
    · rw [if_pos hp, if_neg (by simp : ¬(none : Option Nat) = some cnt), ih,
        applyCascade_cons, if_pos hp]
      simp [cascadeChanges, List.filter_cons, hp]
    · rw [if_neg hp, ih, applyCascade_cons, if_neg hp]
      simp [cascadeChanges, List.filter_cons, hp]

/-- A page found by id carries that id. -/
theorem getPageById_id (st : Store) (i : Nat) (q : Page)
    (h : getPageById st i = some q) : q.id = i := by
  unfold getPageById at h
  have := List.find?_some h
  simpa using this

/-- The parent-resolution step of a slug change can only append placeholder
rows, so a lookup that succeeds before it still returns the same page. -/
theorem getPageById_parentResolution (st pr1 : Store) (pr2 : Option Nat)
    (aid : Nat) (slug : String) (i : Nat) (q : Page)
    (hpr : (if containsChar slug '/' then ensureParentPages st aid slug
        else (st, none)) = (pr1, pr2))
    (h : getPageById st i = some q) :
    getPageById pr1 i = some q := by
  by_cases hc : containsChar slug '/' = true
  · rw [if_pos hc] at hpr
    unfold ensureParentPages at hpr
    by_cases hl : (splitSlash slug).length ≤ 1
    · rw [if_pos hl] at hpr
      injection hpr with h1 _
      rw [← h1]
      exact h
    · rw [if_neg hl] at hpr
      obtain ⟨news, hpg, _⟩ := ensureSegs_spec (splitSlash slug).dropLast aid st none none
      have hfst : pr1 = (ensureSegs aid st none none (splitSlash slug).dropLast).1 :=
        (congrArg Prod.fst hpr).symm
      unfold getPageById
      rw [hfst, hpg, getPageById_append st news i]
      unfold getPageById at h
      rw [h]
      rfl
  · rw [if_neg hc] at hpr
    injection hpr with h1 _
    rw [← h1]
    exact h


/-- C1: for a slug-only update of page `pid` from `page0.slug` to the
distinct non-empty normalized slug `slugify raw` with no colliding page,
given the descendant rows `ds` the recursive CTE returns over the
parent-resolved store `pr1` (with distinct ids not containing `pid`), a
successful update returns a report with exactly one entry per descendant
whose slug has `page0.slug ++ "/"` as a literal prefix (old slug paired
with the prefix replaced by the new slug, in order), the page itself ends
with the new slug, and every other id's row is exactly the cascade target:
prefix-matched descendants get the rewritten slug, all remaining pages are
untouched. -/
theorem updatePage_cascade_renames_descendants
    (fuel : Nat) (st pr1 : Store) (pr2 : Option Nat) (pid aid : Nat)
    (raw comment : String) (page0 p : Page) (st2 : Store)
    (report : List SlugChange) (ds : List (Nat × String))
    (h0 : getPageById st pid = some page0)
    (hne : slugify raw ≠ "" ∧ slugify raw ≠ page0.slug)
    (hcol : getPageBySlug st (slugify raw) = none)
    (hpr : (if containsChar (slugify raw) '/' then
        ensureParentPages st aid (slugify raw) else (st, none)) = (pr1, pr2))
    (hds : getAllDescendants fuel pr1 pid = some ds)
    (hnd : (ds.map Prod.fst).Nodup)
    (hpid : pid ∉ ds.map Prod.fst)
    (hrun : updatePage fuel none st pid aid
        ⟨some raw, none, none, none, none⟩ comment = some (st2, .ok (p, report))) :
    report = cascadeChanges page0.slug (slugify raw) ds ∧
    p = { page0 with slug := slugify raw, parentId := pr2 } ∧
    getPageById st2 pid = some { page0 with slug := slugify raw, parentId := pr2 } ∧
    ∀ i, i ≠ pid →
      getPageById st2 i =
        cascadeTarget page0.slug (slugify raw) pr1 i
          (ds.find? (fun d => d.1 == i)) := by
  have hfind : ds.find? (fun d => d.1 == pid) = none := by
    rw [List.find?_eq_none]
    intro x hx
    simp only [beq_iff_eq]
    intro hxi
    exact hpid (hxi ▸ List.mem_map_of_mem Prod.fst hx)
  simp only [updatePage, h0] at hrun
  rw [if_pos hne] at hrun
  simp only [hcol] at hrun
  simp only [updateWithSlug] at hrun
  rw [hpr] at hrun
  simp only [hds] at hrun
  rw [cascadeGo_none] at hrun
  simp only [updateRest, finishUpdate, List.nil_append] at hrun
  injection hrun with hrun
  injection hrun with hst hres
  injection hres with hres
  injection hres with hp hreport
  have hid : page0.id = pid := getPageById_id st pid page0 h0
  refine ⟨hreport.symm, hp.symm, ?_, ?_⟩
  · rw [← hst, getPageById_dbUpdatePage]
    rw [if_pos (by simp [hid])]
    rw [applyCascade_char ds page0.slug (slugify raw) pr1 pid hnd, hfind,
      cascadeTarget_none,
      getPageById_parentResolution st pr1 pr2 aid (slugify raw) pid page0 hpr h0]
    rfl
  · intro i hi
    rw [← hst, getPageById_dbUpdatePage]
    rw [if_neg (by simp [hid, hi])]
    exact applyCascade_char ds page0.slug (slugify raw) pr1 i hnd


/-- The claim's concrete scenario: a wiki holding "linux" (id 1) and its
child "linux/ubuntu" (id 2). -/
def linuxStore : Store :=
  { pages := [⟨1, "linux", "Linux", "c1", 1, none, true⟩,
              ⟨2, "linux/ubuntu", "Ubuntu", "c2", 1, some 1, true⟩],
    revisions := [], tags := [], pageTags := [],
    nextPageId := 3, nextRevId := 1, nextTagId := 1 }

def linuxPage0 : Page := ⟨1, "linux", "Linux", "c1", 1, none, true⟩

def linuxPage1 : Page := ⟨1, "commands/linux", "Linux", "c1", 1, some 3, true⟩

/-- `linuxStore` after parent resolution for "commands/linux": the
placeholder "commands" (id 3) has been inserted. -/
def linuxPr1 : Store :=
  { pages := [⟨1, "linux", "Linux", "c1", 1, none, true⟩,
              ⟨2, "linux/ubuntu", "Ubuntu", "c2", 1, some 1, true⟩,
              ⟨3, "commands", "Commands", "", 1, none, true⟩],
    revisions := [], tags := [], pageTags := [],
    nextPageId := 4, nextRevId := 1, nextTagId := 1 }

/-- `linuxStore` after renaming "linux" to "commands/linux": the page and
its descendant carry the new prefix, the placeholder parent exists. -/
def linuxStore2 : Store :=
  { pages := [⟨1, "commands/linux", "Linux", "c1", 1, some 3, true⟩,
              ⟨2, "commands/linux/ubuntu", "Ubuntu", "c2", 1, some 1, true⟩,
              ⟨3, "commands", "Commands", "", 1, none, true⟩],
    revisions := [], tags := [], pageTags := [],
    nextPageId := 4, nextRevId := 1, nextTagId := 1 }

/-- Witness: renaming "linux" to "commands/linux" while "linux/ubuntu"
exists leaves "commands/linux/ubuntu" and reports exactly one change. -/
theorem updatePage_cascade_renames_descendants_witness :
    (getPageById linuxStore 1 = some linuxPage0 ∧
     (slugify "commands/linux" ≠ "" ∧ slugify "commands/linux" ≠ linuxPage0.slug) ∧
     getPageBySlug linuxStore (slugify "commands/linux") = none ∧
     (if containsChar (slugify "commands/linux") '/' then
        ensureParentPages linuxStore 1 (slugify "commands/linux")
      else (linuxStore, none)) = (linuxPr1, some 3) ∧
     getAllDescendants 10 linuxPr1 1 = some [(2, "linux/ubuntu")] ∧
     ([(2, "linux/ubuntu")].map Prod.fst).Nodup ∧
     1 ∉ [(2, "linux/ubuntu")].map Prod.fst ∧
     updatePage 10 none linuxStore 1 1
         ⟨some "commands/linux", none, none, none, none⟩ ""
       = some (linuxStore2,
           .ok (linuxPage1, [⟨"linux/ubuntu", "commands/linux/ubuntu"⟩]))) ∧
    ([⟨"linux/ubuntu", "commands/linux/ubuntu"⟩] : List SlugChange)
      = cascadeChanges linuxPage0.slug (slugify "commands/linux")
          [(2, "linux/ubuntu")] ∧
    linuxPage1
      = { linuxPage0 with slug := slugify "commands/linux", parentId := some 3 } ∧
    getPageById linuxStore2 1
      = some { linuxPage0 with slug := slugify "commands/linux", parentId := some 3 } ∧
    ∀ i, i ≠ 1 →
      getPageById linuxStore2 i
        = cascadeTarget linuxPage0.slug (slugify "commands/linux") linuxPr1 i
            ([(2, "linux/ubuntu")].find? (fun d => d.1 == i)) :=
  ⟨⟨rfl, by decide, rfl, rfl, rfl, by decide, by decide, rfl⟩,
   updatePage_cascade_renames_descendants 10 linuxStore linuxPr1 (some 3) 1 1
     "commands/linux" "" linuxPage0 linuxPage1 linuxStore2
     [⟨"linux/ubuntu", "commands/linux/ubuntu"⟩] [(2, "linux/ubuntu")]
     rfl (by decide) rfl rfl rfl (by decide) (by decide) rfl⟩


theorem revisions_dbUpdatePage (st : Store) (q : Page) :
    (dbUpdatePage st q).revisions = st.revisions := rfl

theorem nextRevId_dbUpdatePage (st : Store) (q : Page) :
    (dbUpdatePage st q).nextRevId = st.nextRevId := rfl

theorem revisions_setPageTags (st : Store) (pid : Nat) (ns : List String) :
    (setPageTags st pid ns).revisions = st.revisions :=
  (setPageTags_frame st pid ns).2.1

theorem nextRevId_setPageTags (st : Store) (pid : Nat) (ns : List String) :
    (setPageTags st pid ns).nextRevId = st.nextRevId :=
  (setPageTags_frame st pid ns).2.2.2

/-- `finishUpdate` never touches the revision ledger, passes the change
report through, and the returned page carries the new content when one was
supplied. -/
theorem finishUpdate_spec (st : Store) (pid : Nat) (pg : Page)
    (chs : List SlugChange) (input : PageUpdate) (st2 : Store) (p : Page)
    (chs2 : List SlugChange)
    (h : finishUpdate st pid pg chs input = (st2, .ok (p, chs2))) :
    st2.revisions = st.revisions ∧ st2.nextRevId = st.nextRevId ∧
    chs2 = chs ∧ (∀ c, input.content = some c → p.content = c) := by
  cases hc : input.content <;> cases hp : input.isPublished <;>
    cases ht : input.tags <;>
    simp only [finishUpdate, hc, hp, ht] at h <;>
    injection h with h1 h2 <;>
    injection h2 with h2 <;>
    injection h2 with hpg hchs <;>
    subst h1 <;> subst hpg <;>
    refine ⟨?_, ?_, hchs.symm, ?_⟩ <;>
    simp [revisions_setPageTags, revisions_dbUpdatePage,
      nextRevId_setPageTags, nextRevId_dbUpdatePage, hc]


/-- `updateRest` on a successful outcome: a revision holding the pre-change
content (with the current revision counter) is appended exactly when a
content different from the current one was supplied, the returned page
carries the new content, and the change report is passed through. -/
theorem updateRest_spec (st : Store) (pid aid : Nat) (page : Page)
    (chs : List SlugChange) (input : PageUpdate) (comment : String)
    (st2 : Store) (p : Page) (chs2 : List SlugChange)
    (h : updateRest st pid aid page chs input comment = (st2, .ok (p, chs2))) :
    (∀ c, input.content = some c → c ≠ page.content →
      st2.revisions = st.revisions ++
        [⟨st.nextRevId, pid, page.content, aid, comment⟩]) ∧
    (∀ c, input.content = some c → c = page.content →
      st2.revisions = st.revisions) ∧
    (input.content = none → st2.revisions = st.revisions) ∧
    (∀ c, input.content = some c → p.content = c) ∧
    chs2 = chs := by
  have key : ∀ st1 : Store,
      (match input.title with
        | some t =>
          if trimSpace t = "" then (st1, Except.error WikiErr.invalidTitle)
          else finishUpdate st1 pid { page with title := trimSpace t } chs input
        | none => finishUpdate st1 pid page chs input) = (st2, .ok (p, chs2)) →
      st2.revisions = st1.revisions ∧ st2.nextRevId = st1.nextRevId ∧
      chs2 = chs ∧ (∀ c, input.content = some c → p.content = c) := by
    intro st1 hm
    cases hti : input.title with
    | none =>
      simp only [hti] at hm
      exact finishUpdate_spec st1 pid page chs input st2 p chs2 hm
    | some t =>
      simp only [hti] at hm
      by_cases htt : trimSpace t = ""
      · rw [if_pos htt] at hm
        injection hm with _ h2
        exact absurd h2 (by simp)
      · rw [if_neg htt] at hm
        exact finishUpdate_spec st1 pid _ chs input st2 p chs2 hm
  cases hcc : input.content with
  | none =>
    simp only [updateRest, hcc] at h
    obtain ⟨f1, f2, f3, f4⟩ := key st h
    rw [hcc] at f4
    refine ⟨?_, ?_, fun _ => f1, f4, f3⟩
    · intro c hc
      exact absurd hc (by simp)
    · intro c hc
      exact absurd hc (by simp)
  | some c0 =>
    by_cases hne : c0 = page.content
    · have hif : (if c0 ≠ page.content
          then dbCreateRevision st pid page.content aid comment else st) = st :=
        if_neg (not_not_intro hne)
      simp only [updateRest, hcc, hif] at h
      obtain ⟨f1, f2, f3, f4⟩ := key st h
      rw [hcc] at f4
      refine ⟨?_, fun _ _ _ => f1, fun hn => absurd hn (by simp), f4, f3⟩
      intro c hc hcn
      injection hc with hc
      exact absurd (hc.symm.trans hne) hcn
    · have hif : (if c0 ≠ page.content
          then dbCreateRevision st pid page.content aid comment else st)
            = dbCreateRevision st pid page.content aid comment := if_pos hne
      simp only [updateRest, hcc, hif] at h
      obtain ⟨f1, f2, f3, f4⟩ := key _ h
      rw [hcc] at f4
      refine ⟨fun c hc hcn => f1, ?_, fun hn => absurd hn (by simp), f4, f3⟩
      intro c hc hcq
      injection hc with hc
      exact absurd (hc.trans hcq) hne

/-- Parent resolution for a new slug never touches the revision ledger. -/
theorem parentResolution_frame (st : Store) (aid : Nat) (slug : String) :
    ((if containsChar slug '/' then ensureParentPages st aid slug
      else (st, none)).1).revisions = st.revisions ∧
    ((if containsChar slug '/' then ensureParentPages st aid slug
      else (st, none)).1).nextRevId = st.nextRevId := by
  by_cases hc : containsChar slug '/' = true
  · rw [if_pos hc]
    unfold ensureParentPages
    by_cases hl : (splitSlash slug).length ≤ 1
    · rw [if_pos hl]
      exact ⟨rfl, rfl⟩
    · rw [if_neg hl]
      obtain ⟨news, _, h2, h3, _⟩ :=
        ensureSegs_spec (splitSlash slug).dropLast aid st none none
      exact ⟨h2, h3⟩
  · rw [if_neg hc]
    exact ⟨rfl, rfl⟩

/-- Revision semantics of the slug-change branch of `UpdatePage`: the
parent-resolution inserts and the cascade's slug writes never touch the
revision ledger, so the revision behaviour is that of `updateRest` on the
original store. -/
theorem updateWithSlug_revisions (fuel : Nat) (st : Store) (pid aid : Nat)
    (page0 : Page) (newSlug : String) (input : PageUpdate) (comment : String)
    (st2 : Store) (p : Page) (chs : List SlugChange)
    (h : updateWithSlug fuel none st pid aid page0 newSlug input comment
      = some (st2, .ok (p, chs))) :
    (∀ c, input.content = some c → c ≠ page0.content →
      st2.revisions = st.revisions ++
        [⟨st.nextRevId, pid, page0.content, aid, comment⟩]) ∧
    (∀ c, input.content = some c → c = page0.content →
      st2.revisions = st.revisions) ∧
    (input.content = none → st2.revisions = st.revisions) ∧
    (∀ c, input.content = some c → p.content = c) := by
  simp only [updateWithSlug] at h
  cases hds : getAllDescendants fuel
      (if containsChar newSlug '/' then ensureParentPages st aid newSlug
       else (st, none)).1 pid with
  | none =>
    simp only [hds] at h
    exact Option.noConfusion h
  | some ds =>
    simp only [hds] at h
    rw [cascadeGo_none] at h
    simp only [List.nil_append] at h
    injection h with h
    obtain ⟨u1, u2, u3, u4, _⟩ :=
      updateRest_spec _ pid aid _ _ input comment st2 p chs h
    obtain ⟨pf1, pf2⟩ := parentResolution_frame st aid newSlug
    obtain ⟨af1, af2, _⟩ := applyCascade_frame ds page0.slug newSlug
      (if containsChar newSlug '/' then ensureParentPages st aid newSlug
       else (st, none)).1
    rw [af1, pf1] at u1 u2 u3
    rw [af2, pf2] at u1
    exact ⟨u1, u2, u3, u4⟩


/-- C3: revision semantics of a successful `UpdatePage`: when a content
different from the current one is supplied — regardless of which other
fields (slug, title, published state, tags) change in the same call — a
revision holding the pre-change content is appended to the ledger (exactly
one, with the current revision counter), the returned page carries the new
content, and when the supplied content equals the current one, or no
content is supplied, the ledger is unchanged. -/
theorem updatePage_revision_semantics
    (fuel : Nat) (st st2 : Store) (pid aid : Nat) (input : PageUpdate)
    (comment : String) (page0 p : Page) (chs : List SlugChange)
    (h0 : getPageById st pid = some page0)
    (hrun : updatePage fuel none st pid aid input comment
      = some (st2, .ok (p, chs))) :
    (∀ c, input.content = some c → c ≠ page0.content →
      st2.revisions = st.revisions ++
        [⟨st.nextRevId, pid, page0.content, aid, comment⟩]) ∧
    (∀ c, input.content = some c → c = page0.content →
      st2.revisions = st.revisions) ∧
    (input.content = none → st2.revisions = st.revisions) ∧
    (∀ c, input.content = some c → p.content = c) := by
  simp only [updatePage, h0] at hrun
  cases hsl : input.slug with
  | none =>
    simp only [hsl] at hrun
    injection hrun with hrun
    obtain ⟨u1, u2, u3, u4, _⟩ :=
      updateRest_spec st pid aid page0 [] input comment st2 p chs hrun
    exact ⟨u1, u2, u3, u4⟩
  | some raw =>
    simp only [hsl] at hrun
    by_cases hcond : slugify raw ≠ "" ∧ slugify raw ≠ page0.slug
    · rw [if_pos hcond] at hrun
      cases hex : getPageBySlug st (slugify raw) with
      | some ex =>
        simp only [hex] at hrun
        by_cases hexid : ex.id ≠ pid
        · rw [if_pos hexid] at hrun
          injection hrun with hrun
          injection hrun with _ h2
          exact absurd h2 (by simp)
        · rw [if_neg hexid] at hrun
          exact updateWithSlug_revisions fuel st pid aid page0 (slugify raw)
            input comment st2 p chs hrun
      | none =>
        simp only [hex] at hrun
        exact updateWithSlug_revisions fuel st pid aid page0 (slugify raw)
          input comment st2 p chs hrun
    · rw [if_neg hcond] at hrun
      injection hrun with hrun
      obtain ⟨u1, u2, u3, u4, _⟩ :=
        updateRest_spec st pid aid page0 [] input comment st2 p chs hrun
      exact ⟨u1, u2, u3, u4⟩

/-- A one-page wiki whose page holds content "a". -/
def revStore : Store :=
  { pages := [⟨1, "page", "Page", "a", 1, none, true⟩],
    revisions := [], tags := [], pageTags := [],
    nextPageId := 2, nextRevId := 1, nextTagId := 1 }

def revPage1 : Page := ⟨1, "page", "Page", "b", 1, none, true⟩

def revPage2 : Page := ⟨1, "page", "Page", "a", 1, none, true⟩

/-- `revStore` after updating the content to "b". -/
def revStore1 : Store :=
  { pages := [⟨1, "page", "Page", "b", 1, none, true⟩],
    revisions := [⟨1, 1, "a", 1, ""⟩], tags := [], pageTags := [],
    nextPageId := 2, nextRevId := 2, nextTagId := 1 }

/-- `revStore1` after updating the content back to "a". -/
def revStore2 : Store :=
  { pages := [⟨1, "page", "Page", "a", 1, none, true⟩],
    revisions := [⟨1, 1, "a", 1, ""⟩, ⟨2, 1, "b", 1, ""⟩], tags := [],
    pageTags := [],
    nextPageId := 2, nextRevId := 3, nextTagId := 1 }

/-- C3 counterexample: updating a page's content from "a" to "b" and back
to "a" leaves a revision whose content equals the page's current
post-update content, so "no revision ever holds the page's current
post-update content" fails; each of the two revisions does hold the
content as it was immediately before its update. -/
theorem revision_history_contains_current_content :
    updatePage 10 none revStore 1 1 ⟨none, none, some "b", none, none⟩ ""
      = some (revStore1, .ok (revPage1, [])) ∧
    updatePage 10 none revStore1 1 1 ⟨none, none, some "a", none, none⟩ ""
      = some (revStore2, .ok (revPage2, [])) ∧
    getPageById revStore2 1 = some revPage2 ∧
    (⟨1, 1, "a", 1, ""⟩ : Revision) ∈ revStore2.revisions ∧
    (⟨1, 1, "a", 1, ""⟩ : Revision).content = revPage2.content :=
  ⟨rfl, rfl, rfl, by decide, rfl⟩

/-- Witness for C3's amended revision semantics at the second update of the
double-update scenario. -/
theorem updatePage_revision_semantics_witness :
    (getPageById revStore1 1 = some revPage1 ∧
     updatePage 10 none revStore1 1 1 ⟨none, none, some "a", none, none⟩ ""
       = some (revStore2, .ok (revPage2, []))) ∧
    (∀ c, (⟨none, none, some "a", none, none⟩ : PageUpdate).content = some c →
       c ≠ revPage1.content →
       revStore2.revisions = revStore1.revisions ++
         [⟨revStore1.nextRevId, 1, revPage1.content, 1, ""⟩]) ∧
    (∀ c, (⟨none, none, some "a", none, none⟩ : PageUpdate).content = some c →
       c = revPage1.content → revStore2.revisions = revStore1.revisions) ∧
    ((⟨none, none, some "a", none, none⟩ : PageUpdate).content = none →
       revStore2.revisions = revStore1.revisions) ∧
    (∀ c, (⟨none, none, some "a", none, none⟩ : PageUpdate).content = some c →
       revPage2.content = c) :=
  ⟨⟨rfl, rfl⟩,
   updatePage_revision_semantics 10 revStore1 revStore2 1 1
     ⟨none, none, some "a", none, none⟩ "" revPage1 revPage2 [] rfl rfl⟩


theorem eqNoCase_refl (a : String) : eqNoCase a a = true := by
  simp [eqNoCase]

/-- Resolving the parents of a two-segment slug whose first segment has no
page yet inserts exactly the one placeholder for that segment and returns
its id as the parent. -/
theorem ensureParentPages_two (st : Store) (aid : Nat) (slug p c : String)
    (hsplit : splitSlash slug = [p, c])
    (hpnone : getPageBySlug st p = none) :
    ensureParentPages st aid slug =
      ((dbCreatePage st p (humanizeSegment p) "" aid none true).1,
       some st.nextPageId) := by
  unfold ensureParentPages
  rw [hsplit]
  rw [if_neg (by simp : ¬(([p, c] : List String).length ≤ 1))]
  show ensureSegs aid st none none [p] = _
  simp only [ensureSegs, segSlug, hpnone]
  rfl


/-- C5: creating a page with a two-segment slug p/c while no page for p
exists auto-creates exactly one published placeholder for p — empty
content, no parent, humanized title — parents the new page to it, and a
later parent resolution for the same prefix reuses the placeholder's id
without inserting anything. -/
theorem createPage_auto_creates_parent
    (st st2 : Store) (aid : Nat) (input : PageCreate) (slug p c : String)
    (newId : Nat)
    (hslug : trimSpace input.slug = slug)
    (hsne : slug ≠ "")
    (hid : slugify slug = slug)
    (htitle : trimSpace input.title ≠ "")
    (hconf : getPageBySlug st slug = none)
    (hcc : containsChar slug '/' = true)
    (hsplit : splitSlash slug = [p, c])
    (hpnone : getPageBySlug st p = none)
    (hsp : eqNoCase slug p = false)
    (hps : eqNoCase p slug = false)
    (hrun : createPage st aid input = (st2, .ok newId)) :
    newId = st.nextPageId + 1 ∧
    getPageBySlug st2 p
      = some ⟨st.nextPageId, p, humanizeSegment p, "", aid, none, true⟩ ∧
    (st2.pages.filter (fun q => eqNoCase q.slug p)).length = 1 ∧
    getPageBySlug st2 slug
      = some ⟨st.nextPageId + 1, slug, trimSpace input.title, input.content,
          aid, some st.nextPageId, true⟩ ∧
    (∀ aid2, ensureSegs aid2 st2 none none [p] = (st2, some st.nextPageId)) := by
  have hsel : (if slug = "" then slugify input.title else slugify slug) = slug := by
    rw [if_neg hsne, hid]
  simp only [createPage, hslug, hsel] at hrun
  rw [if_neg hsne, if_neg htitle] at hrun
  simp only [hconf] at hrun
  rw [if_pos hcc, ensureParentPages_two st aid slug p c hsplit hpnone] at hrun
  injection hrun with h1 h2
  injection h2 with h2
  have hpages : st2.pages =
      st.pages ++ [⟨st.nextPageId, p, humanizeSegment p, "", aid, none, true⟩]
        ++ [⟨st.nextPageId + 1, slug, trimSpace input.title, input.content,
             aid, some st.nextPageId, true⟩] := by
    rw [← h1]
    by_cases htg : input.tags.isEmpty = true
    · rw [if_pos htg]
      rfl
    · rw [if_neg htg]
      rw [(setPageTags_frame _ _ _).1]
      rfl
  have hfp : ∀ q ∈ st.pages, ¬(eqNoCase q.slug p = true) := by
    intro q hq
    have := List.find?_eq_none.mp hpnone q hq
    simpa using this
  have hfs : ∀ q ∈ st.pages, ¬(eqNoCase q.slug slug = true) := by
    intro q hq
    have := List.find?_eq_none.mp hconf q hq
    simpa using this
  have hfindp : getPageBySlug st2 p
      = some ⟨st.nextPageId, p, humanizeSegment p, "", aid, none, true⟩ := by
    unfold getPageBySlug
    rw [hpages, List.find?_append, List.find?_append]
    rw [List.find?_eq_none.mpr hfp]
    rw [List.find?_cons_of_pos _ (by simpa using eqNoCase_refl p)]
    rfl
  refine ⟨h2.symm, hfindp, ?_, ?_, ?_⟩
  · rw [hpages, List.filter_append, List.filter_append]
    rw [List.filter_eq_nil_iff.mpr hfp]
    simp [List.filter_cons, eqNoCase_refl, hsp]
  · unfold getPageBySlug
    rw [hpages, List.find?_append, List.find?_append]
    rw [List.find?_eq_none.mpr hfs]
    rw [List.find?_cons_of_neg _ (by simp [hps])]
    rw [List.find?_cons_of_pos _ (by simpa using eqNoCase_refl slug)]
    rfl
  · intro aid2
    simp only [ensureSegs, segSlug, hfindp]


/-- The empty wiki. -/
def emptyStore : Store :=
  { pages := [], revisions := [], tags := [], pageTags := [],
    nextPageId := 1, nextRevId := 1, nextTagId := 1 }

/-- The empty wiki after creating "guides/setup": the placeholder "guides"
(id 1) and the page itself (id 2), with its initial revision. -/
def c5Store2 : Store :=
  { pages := [⟨1, "guides", "Guides", "", 1, none, true⟩,
              ⟨2, "guides/setup", "Setup", "body", 1, some 1, true⟩],
    revisions := [⟨1, 2, "body", 1, "Initial version"⟩],
    tags := [], pageTags := [],
    nextPageId := 3, nextRevId := 2, nextTagId := 1 }

/-- Witness for C5: creating "guides/setup" in the empty wiki. -/
theorem createPage_auto_creates_parent_witness :
    (trimSpace "guides/setup" = "guides/setup" ∧
     "guides/setup" ≠ "" ∧
     slugify "guides/setup" = "guides/setup" ∧
     trimSpace "Setup" ≠ "" ∧
     getPageBySlug emptyStore "guides/setup" = none ∧
     containsChar "guides/setup" '/' = true ∧
     splitSlash "guides/setup" = ["guides", "setup"] ∧
     getPageBySlug emptyStore "guides" = none ∧
     eqNoCase "guides/setup" "guides" = false ∧
     eqNoCase "guides" "guides/setup" = false ∧
     createPage emptyStore 1 ⟨"guides/setup", "Setup", "body", []⟩
       = (c5Store2, .ok 2)) ∧
    (2 : Nat) = emptyStore.nextPageId + 1 ∧
    getPageBySlug c5Store2 "guides"
      = some ⟨emptyStore.nextPageId, "guides", humanizeSegment "guides", "",
          1, none, true⟩ ∧
    (c5Store2.pages.filter (fun q => eqNoCase q.slug "guides")).length = 1 ∧
    getPageBySlug c5Store2 "guides/setup"
      = some ⟨emptyStore.nextPageId + 1, "guides/setup", trimSpace "Setup",
          "body", 1, some emptyStore.nextPageId, true⟩ ∧
    (∀ aid2, ensureSegs aid2 c5Store2 none none ["guides"]
      = (c5Store2, some emptyStore.nextPageId)) :=
  ⟨⟨rfl, by decide, by decide, by decide, rfl, by decide, rfl, rfl,
    by decide, by decide, rfl⟩,
   createPage_auto_creates_parent emptyStore c5Store2 1
     ⟨"guides/setup", "Setup", "body", []⟩ "guides/setup" "guides" "setup" 2
     rfl (by decide) (by decide) (by decide) rfl (by decide) rfl rfl
     (by decide) (by decide) rfl⟩


/-- Parent resolution only appends placeholder rows to the page table. -/
theorem parentResolution_pages (st : Store) (aid : Nat) (slug : String) :
    ∃ news : List Page,
      ((if containsChar slug '/' then ensureParentPages st aid slug
        else (st, none)).1).pages = st.pages ++ news ∧
      ∀ q ∈ news, q.content = "" ∧ q.isPublished = true := by
  by_cases hc : containsChar slug '/' = true
  · rw [if_pos hc]
    unfold ensureParentPages
    by_cases hl : (splitSlash slug).length ≤ 1
    · rw [if_pos hl]
      exact ⟨[], by simp, by simp⟩
    · rw [if_neg hl]
      obtain ⟨news, h1, _, _, _, _, _, h7⟩ :=
        ensureSegs_spec (splitSlash slug).dropLast aid st none none
      exact ⟨news, h1, fun q hq => ⟨(h7 q hq).1, (h7 q hq).2.1⟩⟩
  · rw [if_neg hc]
    exact ⟨[], by simp, by simp⟩

theorem pages_dbCreatePage (st : Store) (sl t c : String) (a : Nat)
    (p : Option Nat) (b : Bool) :
    ((dbCreatePage st sl t c a p b).1).pages
      = st.pages ++ [⟨st.nextPageId, sl, t, c, a, p, b⟩] := rfl

theorem snd_dbCreatePage (st : Store) (sl t c : String) (a : Nat)
    (p : Option Nat) (b : Bool) :
    (dbCreatePage st sl t c a p b).2 = st.nextPageId := rfl

theorem nextRevId_dbCreatePage (st : Store) (sl t c : String) (a : Nat)
    (p : Option Nat) (b : Bool) :
    ((dbCreatePage st sl t c a p b).1).nextRevId = st.nextRevId := rfl

theorem revisions_dbCreatePage (st : Store) (sl t c : String) (a : Nat)
    (p : Option Nat) (b : Bool) :
    ((dbCreatePage st sl t c a p b).1).revisions = st.revisions := rfl

theorem pages_dbCreateRevision (st : Store) (pid : Nat) (c : String)
    (a : Nat) (cm : String) :
    (dbCreateRevision st pid c a cm).pages = st.pages := rfl

theorem revisions_dbCreateRevision (st : Store) (pid : Nat) (c : String)
    (a : Nat) (cm : String) :
    (dbCreateRevision st pid c a cm).revisions
      = st.revisions ++ [⟨st.nextRevId, pid, c, a, cm⟩] := rfl

/-- C6 (amended): `CreatePage` validation and insertion.  The three error
cases return the untouched store; a successful create appends the new page
with the normalized (or title-derived) slug together with exactly one
"Initial version" revision whose content equals the created page's
content — plus, for hierarchical slugs, any number of auto-created
placeholder rows (so "exactly one page inserted" holds only up to
placeholders). -/
theorem createPage_validation_and_insertion (st : Store) (aid : Nat)
    (input : PageCreate) :
    ((if trimSpace input.slug = "" then slugify input.title
      else slugify (trimSpace input.slug)) = "" →
      createPage st aid input = (st, .error .invalidSlug)) ∧
    ((if trimSpace input.slug = "" then slugify input.title
      else slugify (trimSpace input.slug)) ≠ "" →
     trimSpace input.title = "" →
      createPage st aid input = (st, .error .invalidTitle)) ∧
    (∀ ex, (if trimSpace input.slug = "" then slugify input.title
      else slugify (trimSpace input.slug)) ≠ "" →
     trimSpace input.title ≠ "" →
     getPageBySlug st (if trimSpace input.slug = "" then slugify input.title
      else slugify (trimSpace input.slug)) = some ex →
      createPage st aid input = (st, .error .pageExists)) ∧
    (∀ st2 newId, createPage st aid input = (st2, .ok newId) →
      ∃ news : List Page, ∃ pid2 : Option Nat,
        st2.pages = st.pages ++ news ++
          [⟨newId, (if trimSpace input.slug = "" then slugify input.title
              else slugify (trimSpace input.slug)), trimSpace input.title,
            input.content, aid, pid2, true⟩] ∧
        (∀ q ∈ news, q.content = "" ∧ q.isPublished = true) ∧
        st2.revisions = st.revisions ++
          [⟨st.nextRevId, newId, input.content, aid, "Initial version"⟩]) := by
  refine ⟨?_, ?_, ?_, ?_⟩
  · intro hS
    simp only [createPage]
    rw [if_pos hS]
  · intro hS ht
    simp only [createPage]
    rw [if_neg hS, if_pos ht]
  · intro ex hS ht hex
    simp only [createPage]
    rw [if_neg hS, if_neg ht]
    simp only [hex]
  · intro st2 newId hrun
    simp only [createPage] at hrun
    by_cases h1 : (if trimSpace input.slug = "" then slugify input.title
        else slugify (trimSpace input.slug)) = ""
    · rw [if_pos h1] at hrun
      injection hrun with _ h2
      exact absurd h2 (by simp)
    · rw [if_neg h1] at hrun
      by_cases h2 : trimSpace input.title = ""
      · rw [if_pos h2] at hrun
        injection hrun with _ h3
        exact absurd h3 (by simp)
      · rw [if_neg h2] at hrun
        cases hex : getPageBySlug st (if trimSpace input.slug = ""
            then slugify input.title else slugify (trimSpace input.slug)) with
        | some ex =>
          simp only [hex] at hrun
          injection hrun with _ h3
          exact absurd h3 (by simp)
        | none =>
          simp only [hex] at hrun
          obtain ⟨news, hnp, hph⟩ := parentResolution_pages st aid
            (if trimSpace input.slug = "" then slugify input.title
             else slugify (trimSpace input.slug))
          obtain ⟨pf1, pf2⟩ := parentResolution_frame st aid
            (if trimSpace input.slug = "" then slugify input.title
             else slugify (trimSpace input.slug))
          injection hrun with hst hok
          injection hok with hok
          rw [snd_dbCreatePage] at hok
          refine ⟨news, (if containsChar (if trimSpace input.slug = ""
              then slugify input.title
              else slugify (trimSpace input.slug)) '/'
            then ensureParentPages st aid (if trimSpace input.slug = ""
              then slugify input.title else slugify (trimSpace input.slug))
            else (st, none)).2, ?_, hph, ?_⟩
          · rw [← hst]
            by_cases htg : input.tags.isEmpty = true
            · rw [if_pos htg, pages_dbCreateRevision, pages_dbCreatePage,
                hnp, hok]
            · rw [if_neg htg, (setPageTags_frame _ _ _).1,
                pages_dbCreateRevision, pages_dbCreatePage, hnp, hok]
          · rw [← hst]
            by_cases htg : input.tags.isEmpty = true
            · rw [if_pos htg, revisions_dbCreateRevision,
                revisions_dbCreatePage, nextRevId_dbCreatePage,
                snd_dbCreatePage, pf1, pf2, hok]
            · rw [if_neg htg, revisions_setPageTags,
                revisions_dbCreateRevision, revisions_dbCreatePage,
                nextRevId_dbCreatePage, snd_dbCreatePage, pf1, pf2, hok]

/-- C6 counterexample: a successful hierarchical create inserts two pages
(the placeholder parent and the page itself), refuting "on success exactly
one page is inserted". -/
theorem createPage_inserts_placeholder_counterexample :
    createPage emptyStore 1 ⟨"guides/setup", "Setup", "body", []⟩
      = (c5Store2, .ok 2) ∧
    emptyStore.pages.length = 0 ∧ c5Store2.pages.length = 2 :=
  ⟨rfl, rfl, rfl⟩

/-- Witness for C6's amended validation and insertion facts: an
all-punctuation title with an empty supplied slug is rejected as an
invalid slug with the store untouched, and the successful hierarchical
create appends its one page and one "Initial version" revision. -/
theorem createPage_validation_and_insertion_witness :
    createPage emptyStore 1 ⟨"", "???", "x", []⟩
      = (emptyStore, .error .invalidSlug) ∧
    (∃ news : List Page, ∃ pid2 : Option Nat,
      c5Store2.pages = emptyStore.pages ++ news ++
        [⟨2, (if trimSpace "guides/setup" = "" then slugify "Setup"
            else slugify (trimSpace "guides/setup")), trimSpace "Setup",
          "body", 1, pid2, true⟩] ∧
      (∀ q ∈ news, q.content = "" ∧ q.isPublished = true) ∧
      c5Store2.revisions = emptyStore.revisions ++
        [⟨emptyStore.nextRevId, 2, "body", 1, "Initial version"⟩]) :=
  ⟨(createPage_validation_and_insertion emptyStore 1 ⟨"", "???", "x", []⟩).1
     (by decide),
   (createPage_validation_and_insertion emptyStore 1
      ⟨"guides/setup", "Setup", "body", []⟩).2.2.2 c5Store2 2 rfl⟩


/-- C10: placeholder ancestor pages auto-created by the parent resolution
(`ensureParentPages` inner loop, used both by a hierarchical create and by
a rename that introduces new parents) are inserted with empty content and
published, and — provided every existing revision references an already
allocated page id — no revision, before or after, references a
placeholder: their revision history starts empty (no "Initial version"
row). -/
theorem placeholder_pages_have_no_revisions
    (aid : Nat) (st : Store) (pid : Option Nat) (pre : Option String)
    (segs : List String)
    (hwf : ∀ r ∈ st.revisions, r.pageId < st.nextPageId) :
    ∃ news : List Page,
      (ensureSegs aid st pid pre segs).1.pages = st.pages ++ news ∧
      (ensureSegs aid st pid pre segs).1.revisions = st.revisions ∧
      ∀ q ∈ news, q.content = "" ∧ q.isPublished = true ∧
        ∀ r ∈ (ensureSegs aid st pid pre segs).1.revisions, r.pageId ≠ q.id := by
  obtain ⟨news, h1, h2, _, _, _, _, h7⟩ := ensureSegs_spec segs aid st pid pre
  refine ⟨news, h1, h2, fun q hq => ⟨(h7 q hq).1, (h7 q hq).2.1, ?_⟩⟩
  intro r hr
  rw [h2] at hr
  have hlt := hwf r hr
  have hge := (h7 q hq).2.2.1
  omega

/-- Witness for C10 on a store already holding one page and its revision:
resolving the missing prefix "guides" inserts one empty published
placeholder that no revision references. -/
theorem placeholder_pages_have_no_revisions_witness :
    (∀ r ∈ revStore1.revisions, r.pageId < revStore1.nextPageId) ∧
    (∃ news : List Page,
      (ensureSegs 1 revStore1 none none ["guides"]).1.pages
        = revStore1.pages ++ news ∧
      (ensureSegs 1 revStore1 none none ["guides"]).1.revisions
        = revStore1.revisions ∧
      ∀ q ∈ news, q.content = "" ∧ q.isPublished = true ∧
        ∀ r ∈ (ensureSegs 1 revStore1 none none ["guides"]).1.revisions,
          r.pageId ≠ q.id) :=
  ⟨by decide,
   placeholder_pages_have_no_revisions 1 revStore1 none none ["guides"]
     (by decide)⟩


end Wikigo
